import Mathlib

/-!
# Verification of the iapetus workflow engine core

This file gives a shallow embedding, in Lean 4, of the core data structures and
algorithms of the iapetus workflow engine (Go), and proves properties of them:

* the thread-safe task DAG (`dag.go`): `AddTask`, `Validate`, `GetTopologicalOrder`,
  `GetDependencies`, `GetDependents`;
* the task executor retry loop (`task.go`: `Task.Run`);
* the assertion aggregator (`assert.go`: `RunAssertions`, `AssertionErrors.Error`);
* the parallel DAG scheduler (`scheduler.go`: `dagScheduler`), modelled as a
  small-step transition system whose atomic steps are the mutex-protected
  critical sections of the Go code.

Go maps iterate in an unspecified order; the embedding determinises them as
association lists in insertion order.  Every property proved below is
independent of that iteration order.  Go `int`/`time.Duration` values are
embedded as `Int` (no arithmetic here approaches 64-bit overflow), and Go
`error` values as `Option String` carrying the message.
-/

namespace Iapetus

/-- Pointwise update of a function-valued map, used for the mutable Go maps of
the scheduler state. -/
def upd {β : Type} (f : String → β) (k : String) (v : β) : String → β :=
  fun x => if x = k then v else f x

theorem upd_same {β : Type} (f : String → β) (k : String) (v : β) : upd f k v k = v := by
  simp [upd]

theorem upd_ne {β : Type} (f : String → β) (k x : String) (v : β) (h : x ≠ k) :
    upd f k v x = f x := by
  simp [upd, h]

/-- Lookup in an association list (a Go `map` determinised in insertion order). -/
def alookup {β : Type} (m : List (String × β)) (k : String) : Option β :=
  match m.find? (fun p => p.1 = k) with
  | some p => some p.2
  | none => none

/-- Go map assignment `m[k] = v`: replace the binding in place if the key is
present, otherwise append a fresh binding. -/
def aset {β : Type} (m : List (String × β)) (k : String) (v : β) : List (String × β) :=
  if (m.find? (fun p => p.1 = k)).isSome then
    m.map (fun p => if p.1 = k then (k, v) else p)
  else m ++ [(k, v)]

/-! ## The DAG (`dag.go`)

`TaskNode` mirrors the Go struct of the same name: `deps` is the copied
dependency list and `depends` is the field the Go code seeds with a copy of
`task.Depends` and later extends with the names of tasks that depend on this
node (`dag.go` lines 44-61). -/

structure TaskNode where
  name : String
  deps : List String
  depends : List String
deriving DecidableEq, Repr

/-- The task fields `AddTask` reads (`Name` and `Depends`). -/
structure GoTask where
  name : String
  depends : List String
deriving DecidableEq, Repr

/-- The DAG: `nodes` and `edges` are the two Go maps of the `DAG` struct. -/
structure DAG where
  nodes : List (String × TaskNode)
  edges : List (String × List String)
deriving DecidableEq, Repr

/-- The body of the `for _, dep := range task.Depends` loop of `AddTask`
(`dag.go` lines 53-61): ensure an edge entry for `dep`, append the new task's
name to it, and, when a node named `dep` already exists, also append the new
task's name to that node's `Depends` field. -/
def addDepEdge (d : DAG) (taskName dep : String) : DAG :=
  let e0 := (alookup d.edges dep).getD []
  let edges' := aset d.edges dep (e0 ++ [taskName])
  let nodes' :=
    match alookup d.nodes dep with
    | some node => aset d.nodes dep { node with depends := node.depends ++ [taskName] }
    | none => d.nodes
  ⟨nodes', edges'⟩

/-- `DAG.AddTask` (`dag.go` lines 32-63).  A `nil` task pointer is modelled by
`none`.  The Go method mutates the receiver; the embedding returns the error
(if any) together with the resulting DAG state, which on every error path is
the unmodified input, exactly as in the source where all checks precede all
writes. -/
def addTask (d : DAG) (task : Option GoTask) : Option String × DAG :=
  match task with
  | none => (some "task is nil", d)
  | some t =>
    if t.name = "" then (some "task must have a name", d)
    else if (alookup d.nodes t.name).isSome then
      (some ("task with name " ++ t.name ++ " already exists"), d)
    else
      let d1 : DAG :=
        ⟨d.nodes ++ [(t.name, ⟨t.name, t.depends, t.depends⟩)],
         if (alookup d.edges t.name).isSome then d.edges else d.edges ++ [(t.name, [])]⟩
      (none, t.depends.foldl (fun acc dep => addDepEdge acc t.name dep) d1)

/-- `DAG.GetDependencies` (`dag.go` lines 159-167): returns a copy of
`node.Deps`, or reports that the task is unknown (`none`). -/
def getDependencies (d : DAG) (taskName : String) : Option (List String) :=
  (alookup d.nodes taskName).map (fun node => node.deps)

/-- `DAG.GetDependents` (`dag.go` lines 170-178): returns a copy of
`node.Depends`, or reports that the task is unknown (`none`). -/
def getDependents (d : DAG) (taskName : String) : Option (List String) :=
  (alookup d.nodes taskName).map (fun node => node.depends)

/-- C8: `AddTask` rejects a nil task, an empty name, and a duplicate name (with
an "already exists" error); in each of these cases the DAG's `nodes` and
`edges` are returned unchanged, because in the source every check precedes
every write.  It never rejects a task for referring to dependencies that are
not (yet) in the DAG: whenever the name is non-empty and fresh, the insertion
succeeds regardless of the `Depends` list. -/
theorem addTask_error_cases (d : DAG) :
    addTask d none = (some "task is nil", d) ∧
    (∀ t : GoTask, t.name = "" → addTask d (some t) = (some "task must have a name", d)) ∧
    (∀ t : GoTask, t.name ≠ "" → (alookup d.nodes t.name).isSome →
      addTask d (some t) = (some ("task with name " ++ t.name ++ " already exists"), d)) ∧
    (∀ t : GoTask, t.name ≠ "" → (alookup d.nodes t.name).isSome = false →
      (addTask d (some t)).1 = none) := by
  refine ⟨rfl, ?_, ?_, ?_⟩
  · intro t ht
    simp [addTask, ht]
  · intro t hne hdup
    simp [addTask, hne, hdup]
  · intro t hne hfresh
    simp [addTask, hne, hfresh]

/-- Witness for `addTask_error_cases` at a concrete DAG and concrete tasks. -/
theorem addTask_error_cases_witness :
    (addTask (addTask ⟨[], []⟩ (some ⟨"a", []⟩)).2 (some ⟨"a", []⟩)
        = (some "task with name a already exists", (addTask ⟨[], []⟩ (some ⟨"a", []⟩)).2)) ∧
    (addTask (addTask ⟨[], []⟩ (some ⟨"a", []⟩)).2 (some ⟨"b", ["missing"]⟩)).1 = none := by
  constructor
  · exact (addTask_error_cases (addTask ⟨[], []⟩ (some ⟨"a", []⟩)).2).2.2.1
      ⟨"a", []⟩ (by decide) (by decide)
  · exact (addTask_error_cases (addTask ⟨[], []⟩ (some ⟨"a", []⟩)).2).2.2.2
      ⟨"b", ["missing"]⟩ (by decide) (by decide)

/-- C9 (code bug evidence): build a DAG by two successful `AddTask` calls,
`task1` with no dependencies and then `task2` depending on `task1`.  No task
declares `task2` as a dependency, yet `GetDependents "task2"` answers
`["task1"]` — `task2`'s *own* dependency — because `AddTask` initialises the
node's `Depends` field with a copy of `task.Depends` (`dag.go` line 48)
instead of an empty list, contradicting both the spec's `forward_edges`
description and the method's own doc comment ("returns all tasks that depend
on a task"). -/
theorem getDependents_returns_own_deps :
    (addTask (addTask ⟨[], []⟩ (some ⟨"task1", []⟩)).2 (some ⟨"task2", ["task1"]⟩)).1 = none ∧
    getDependents
        (addTask (addTask ⟨[], []⟩ (some ⟨"task1", []⟩)).2 (some ⟨"task2", ["task1"]⟩)).2
        "task2" = some ["task1"] ∧
    "task2" ∉ (⟨"task1", ([] : List String)⟩ : GoTask).depends ∧
    "task2" ∉ (⟨"task2", ["task1"]⟩ : GoTask).depends := by
  refine ⟨by decide, by decide, by decide, by decide⟩

/-! ## The task executor (`task.go`, `Task.Run`, lines 233-276)

`Task.Run` is impure: each attempt shells out via `executeCommand`.  The
embedding abstracts one run of the task as a function `exec : Nat → Option
String` giving the result of `executeCommand` on the k-th (1-based) attempt
(`none` = success, `some e` = the error message), and the optional `PreRun`
and `PostRun` hooks as `Option (Option String)` (`none` = hook is nil,
`some r` = hook present and returns `r`).  Durations are `Int` nanoseconds,
as Go's `time.Duration`. -/

/-- Outcome of one call to `Task.Run`: how many attempts executed a command,
the returned error (if any), and whether the `PostRun` hook was invoked. -/
structure RunResult where
  attempts : Nat
  retErr : Option String
  postRunInvoked : Bool
deriving DecidableEq, Repr

/-- The error message built by the exhausted retry loop:
`fmt.Errorf("task %s failed after %d attempts: %w", t.Name, t.Retries, err)`. -/
def failAfterMsg (name : String) (retries : Int) (e : String) : String :=
  "task " ++ name ++ " failed after " ++ toString retries ++ " attempts: " ++ e

/-- The retry loop of `Task.Run` (`task.go` lines 255-267), entered at attempt
`k` (the caller guarantees `1 ≤ k ≤ retries` when first entering, matching the
`for attempt := 1; attempt <= t.Retries` header): run `executeCommand`; on
success return `nil`; on failure retry while `attempt < t.Retries`, else
return the wrapped error.  Every iteration returns or continues. -/
def runLoop (name : String) (retries : Int) (exec : Nat → Option String) (k : Nat) :
    RunResult :=
  match exec k with
  | none => ⟨k, none, false⟩
  | some e =>
    if h : (k : Int) < retries then runLoop name retries exec (k + 1)
    else ⟨k, some (failAfterMsg name retries e), false⟩
termination_by retries.toNat + 1 - k
decreasing_by
  have hk : k < retries.toNat := by omega
  omega

/-- The timeout defaulting of `Task.Run` (`task.go` lines 240-242):
`if t.Timeout == 0*time.Second { t.Timeout = 100 * time.Second }`.
Values are `Int` nanoseconds (`time.Duration`). -/
def defaultedTimeout (timeout : Int) : Int :=
  if timeout = 0 then 100 * 1000000000 else timeout

/-- `Task.Run` (`task.go` lines 233-276): normalise `Retries` (`0` becomes
`1`), run `PreRun` if present (an error there returns immediately), then the
retry loop.  The loop body always returns or continues, so the code after the
loop — the `PostRun` invocation and `return lastErr` — runs exactly when the
loop executes zero iterations, i.e. when the normalised `Retries` is below
`1` (which only negative inputs produce); `lastErr` is still `nil` there. -/
def taskRun (name : String) (retries : Int) (preRun postRun : Option (Option String))
    (exec : Nat → Option String) : RunResult :=
  let retries := if retries = 0 then 1 else retries
  match preRun with
  | some (some e) => ⟨0, some ("pre-run hook failed for task " ++ name ++ ": " ++ e), false⟩
  | _ =>
    if 1 ≤ retries then runLoop name retries exec 1
    else
      match postRun with
      | none => ⟨0, none, false⟩
      | some none => ⟨0, none, true⟩
      | some (some e) =>
        ⟨0, some ("post-run hook failed for task " ++ name ++ ": " ++ e), true⟩

/-- The retry loop never reaches the `PostRun` hook: each iteration returns. -/
theorem runLoop_postRun (name : String) (retries : Int) (exec : Nat → Option String)
    (k : Nat) : (runLoop name retries exec k).postRunInvoked = false := by
  induction k using runLoop.induct name retries exec with
  | case1 k hk => rw [runLoop, hk]
  | case2 k e hk hlt ih => rw [runLoop, hk]; simpa [hlt] using ih
  | case3 k e hk hlt => rw [runLoop, hk]; simp [hlt]

/-- If attempts `k, k+1, …, N` all fail, the loop entered at `k` executes
exactly the attempts up to `N` and returns the wrapped error of the last
one. -/
theorem runLoop_all_fail (name : String) (N : Int) (exec : Nat → Option String)
    (k : Nat) (hk1 : 1 ≤ k) (hkN : (k : Int) ≤ N)
    (hfail : ∀ j : Nat, k ≤ j → (j : Int) ≤ N → (exec j).isSome) :
    (runLoop name N exec k).attempts = N.toNat ∧
    ∃ e, exec N.toNat = some e ∧
      (runLoop name N exec k).retErr = some (failAfterMsg name N e) := by
  induction k using runLoop.induct name N exec with
  | case1 k hk =>
    exfalso
    have := hfail k le_rfl hkN
    simp [hk] at this
  | case2 k e hk hlt ih =>
    rw [runLoop, hk]
    simp only [hlt, dite_true]
    exact ih (by omega) (by omega) (fun j hj hjN => hfail j (by omega) hjN)
  | case3 k e hk hlt =>
    have hEq : (k : Int) = N := by omega
    have hkn : k = N.toNat := by omega
    rw [runLoop, hk]
    simp only [hlt, dite_false]
    exact ⟨by simpa using hkn, e, by rw [← hkn, hk], rfl⟩

/-- If attempt `m` is the first success (all earlier attempts from `k` on
fail), the loop entered at `k` stops at attempt `m` with a `nil` error. -/
theorem runLoop_first_success (name : String) (N : Int) (exec : Nat → Option String)
    (k m : Nat) (hkm : k ≤ m) (hmN : (m : Int) ≤ N)
    (hsucc : exec m = none)
    (hbefore : ∀ j : Nat, k ≤ j → j < m → (exec j).isSome) :
    (runLoop name N exec k).attempts = m ∧ (runLoop name N exec k).retErr = none := by
  induction k using runLoop.induct name N exec with
  | case1 k hk =>
    have hkm' : k = m := by
      by_contra hne
      have := hbefore k le_rfl (by omega)
      simp [hk] at this
    rw [runLoop, hk]
    exact ⟨hkm', rfl⟩
  | case2 k e hk hlt ih =>
    have hne : k ≠ m := by intro h; rw [h, hsucc] at hk; cases hk
    rw [runLoop, hk]
    simp only [hlt, dite_true]
    exact ih (by omega) (fun j hj hjm => hbefore j (by omega) hjm)
  | case3 k e hk hlt =>
    exfalso
    have hne : k ≠ m := by intro h; rw [h, hsucc] at hk; cases hk
    have := hbefore k le_rfl (by omega)
    omega

/-- C4: with `retries = N` after normalisation (`N ≥ 1`) and no failing
`PreRun` hook: a task whose every attempt fails executes exactly `N` attempts
and returns `task <name> failed after <N> attempts: <underlying>` with the
last attempt's error; a task whose attempt `m` is the first to succeed stops
after attempt `m` with a `nil` error; in particular a task whose first
attempt succeeds executes exactly one attempt. -/
theorem taskRun_retry_counts (name : String) (r : Int) (postRun : Option (Option String))
    (exec : Nat → Option String) (N : Int) (hN : N = if r = 0 then 1 else r)
    (hN1 : 1 ≤ N) :
    ((∀ j : Nat, 1 ≤ j → (j : Int) ≤ N → (exec j).isSome) →
      (taskRun name r none postRun exec).attempts = N.toNat ∧
      ∃ e, exec N.toNat = some e ∧
        (taskRun name r none postRun exec).retErr = some (failAfterMsg name N e)) ∧
    (∀ m : Nat, 1 ≤ m → (m : Int) ≤ N → exec m = none →
      (∀ j : Nat, 1 ≤ j → j < m → (exec j).isSome) →
      (taskRun name r none postRun exec).attempts = m ∧
      (taskRun name r none postRun exec).retErr = none) ∧
    (exec 1 = none →
      (taskRun name r none postRun exec).attempts = 1 ∧
      (taskRun name r none postRun exec).retErr = none) := by
  have hrun : taskRun name r none postRun exec = runLoop name N exec 1 := by
    rw [taskRun.eq_def]
    simp only [← hN, hN1, if_true]
  refine ⟨?_, ?_, ?_⟩
  · intro hfail
    rw [hrun]
    exact runLoop_all_fail name N exec 1 le_rfl (by exact_mod_cast hN1)
      (fun j hj hjN => hfail j hj hjN)
  · intro m hm1 hmN hsucc hbefore
    rw [hrun]
    exact runLoop_first_success name N exec 1 m hm1 hmN hsucc hbefore
  · intro hsucc
    rw [hrun]
    exact runLoop_first_success name N exec 1 1 le_rfl (by exact_mod_cast hN1) hsucc
      (fun j hj hjm => by omega)

/-- Witness for `taskRun_retry_counts`: `retries = 3`, attempts 1 and 2 fail,
attempt 3 fails too, so exactly 3 attempts run and the error message is
`task t failed after 3 attempts: boom3`; and with a first-attempt success the
task is attempted exactly once. -/
theorem taskRun_retry_counts_witness :
    ((taskRun "t" 3 none none (fun k => some ("boom" ++ toString k))).attempts = 3 ∧
      (taskRun "t" 3 none none (fun k => some ("boom" ++ toString k))).retErr =
        some "task t failed after 3 attempts: boom3") ∧
    ((taskRun "t" 3 none none (fun _ => none)).attempts = 1 ∧
      (taskRun "t" 3 none none (fun _ => none)).retErr = none) := by
  constructor
  · have h := (taskRun_retry_counts "t" 3 none (fun k => some ("boom" ++ toString k))
      3 (by decide) (by decide)).1 (fun j hj hjN => by simp)
    obtain ⟨h1, e, he, h2⟩ := h
    refine ⟨h1, ?_⟩
    have : e = "boom3" := by simpa using he.symm
    rw [h2, this]
    rfl
  · exact (taskRun_retry_counts "t" 3 none (fun _ => none) 3 (by decide) (by decide)).2.2 rfl

/-- C10 counterexample: the claim asserts `Task.Run` never invokes `PostRun`
for *any* `Retries` value, on the ground that `Retries` is normalised to at
least 1.  But the normalisation only maps `0` to `1`; for a negative
`Retries` the loop `for attempt := 1; attempt <= t.Retries` runs zero times
and control falls through to the `PostRun` invocation.  Concretely, with
`Retries = -1` and a `PostRun` hook present, the hook runs. -/
theorem taskRun_negative_retries_postRun :
    (taskRun "t" (-1) none (some none) (fun _ => none)).postRunInvoked = true ∧
    (taskRun "t" (-1) none (some none) (fun _ => none)).attempts = 0 := by
  constructor <;> rfl

/-- C10 (amended): for every non-negative `Retries` value, `Task.Run` returns
without invoking `PostRun`: `Retries = 0` is normalised to `1`, and for a
positive count every iteration of the retry loop either returns or continues,
so the code after the loop is unreachable. -/
theorem taskRun_postRun_unreachable (name : String) (r : Int)
    (preRun postRun : Option (Option String)) (exec : Nat → Option String)
    (hr : 0 ≤ r) :
    (taskRun name r preRun postRun exec).postRunInvoked = false := by
  rw [taskRun.eq_def]
  have h1 : 1 ≤ if r = 0 then 1 else r := by
    split <;> omega
  match preRun with
  | some (some e) => rfl
  | some none => simp only [h1, if_true]; exact runLoop_postRun _ _ _ _
  | none => simp only [h1, if_true]; exact runLoop_postRun _ _ _ _

/-- Witness for `taskRun_postRun_unreachable` at `Retries = 0` with a
`PostRun` hook present. -/
theorem taskRun_postRun_unreachable_witness :
    (taskRun "t" 0 none (some none) (fun _ => some "boom")).postRunInvoked = false :=
  taskRun_postRun_unreachable "t" 0 none (some none) (fun _ => some "boom") (by decide)

/-- C5 counterexample: the claim says an absent (zero) timeout defaults to 30
seconds, overridable via `IAPETUS_TASK_TIMEOUT`.  The code hard-codes
`100 * time.Second` and reads no environment variable. -/
theorem defaultedTimeout_not_thirty :
    defaultedTimeout 0 = 100 * 1000000000 ∧ defaultedTimeout 0 ≠ 30 * 1000000000 := by
  decide

/-- C5 (amended): a zero timeout is replaced by the constant 100 seconds, and
a non-zero timeout is kept. -/
theorem defaultedTimeout_spec (t : Int) :
    defaultedTimeout 0 = 100 * 1000000000 ∧ (t ≠ 0 → defaultedTimeout t = t) := by
  exact ⟨rfl, fun h => by simp [defaultedTimeout, h]⟩

/-- Witness for `defaultedTimeout_spec` at a concrete non-zero timeout. -/
theorem defaultedTimeout_spec_witness : defaultedTimeout 5000000000 = 5000000000 :=
  (defaultedTimeout_spec 5000000000).2 (by decide)

/-! ## Assertion aggregation (`assert.go`)

An assertion is a Go function `func(*Task) error`; the embedding keeps the
task type abstract (`α`) and represents an assertion as `α → Option String`. -/

/-- `AssertionErrors.Error` (`assert.go` lines 102-108): collect each error's
message and join with `"; "`. -/
def assertionErrorsMessage (errs : List String) : String :=
  String.intercalate "; " errs

/-- `RunAssertions` (`assert.go` lines 111-122): run every assertion in
insertion order, append each non-nil error to `errs`, and return the
aggregate (`AssertionErrors`) if any failed, else `nil`. -/
def runAssertions {α : Type} (asserts : List (α → Option String)) (t : α) : Option String :=
  let errs : List String :=
    asserts.foldl (fun acc assert =>
      match assert t with
      | some e => acc ++ [e]
      | none => acc) []
  if errs.length > 0 then some (assertionErrorsMessage errs) else none

theorem runAssertions_foldl_eq_filterMap {α : Type} (asserts : List (α → Option String))
    (t : α) (acc : List String) :
    asserts.foldl (fun acc assert =>
      match assert t with
      | some e => acc ++ [e]
      | none => acc) acc = acc ++ asserts.filterMap (fun f => f t) := by
  induction asserts generalizing acc with
  | nil => simp
  | cons f fs ih =>
    cases h : f t with
    | none => simp [List.foldl_cons, h, ih]
    | some e => simp [List.foldl_cons, h, ih]

/-- C6: `RunAssertions` returns `nil` exactly when every registered assertion
returned `nil`; otherwise it returns a single error whose message is the
failing assertions' messages, in insertion order, joined with `"; "`. -/
theorem runAssertions_spec {α : Type} (asserts : List (α → Option String)) (t : α) :
    (runAssertions asserts t = none ↔ ∀ f ∈ asserts, f t = none) ∧
    (∀ m : String, ∀ ms : List String,
      asserts.filterMap (fun f => f t) = m :: ms →
      runAssertions asserts t = some (String.intercalate "; " (m :: ms))) := by
  have hfm := runAssertions_foldl_eq_filterMap asserts t []
  constructor
  · rw [runAssertions]
    simp only [hfm, List.nil_append]
    constructor
    · intro h f hf
      by_cases hlen : (asserts.filterMap (fun f => f t)).length > 0
      · simp [hlen] at h
      · have : asserts.filterMap (fun f => f t) = [] := by
          cases hl : asserts.filterMap (fun f => f t) with
          | nil => rfl
          | cons a l => rw [hl] at hlen; simp at hlen
        rw [List.filterMap_eq_nil_iff] at this
        exact this f hf
    · intro h
      have : asserts.filterMap (fun f => f t) = [] := List.filterMap_eq_nil_iff.mpr h
      simp [this]
  · intro m ms hfm2
    rw [runAssertions]
    simp only [hfm, List.nil_append, hfm2]
    simp [assertionErrorsMessage]

/-- Witness for `runAssertions_spec`: three assertions, the first and third
failing, aggregate to `"e1; e2"`; and the all-pass side of the equivalence at
a singleton list. -/
theorem runAssertions_spec_witness :
    runAssertions [fun _ => some "e1", fun _ => none, fun _ => some "e2"] (0 : Nat) =
      some "e1; e2" ∧
    runAssertions [fun _ => none] (0 : Nat) = none := by
  constructor
  · have h := (runAssertions_spec
      [fun _ => some "e1", fun _ => none, fun _ => some "e2"] (0 : Nat)).2 "e1" ["e2"] rfl
    simpa using h
  · exact (runAssertions_spec [fun _ => none] (0 : Nat)).1.mpr (by simp)

/-! ## Scheduler error propagation (`scheduler.go`, `dagScheduler.runTask`)

Each worker's post-run processing (`scheduler.go` lines 156-178) happens in a
critical section of the shared mutex `s.mu`, so the processing sections of a
run form a sequence.  The embedding folds over that sequence: a *completion
event* is the pair of the task's name and the `error` its `task.Run()`
returned (`none` = success).  The panic path (lines 130-154) stores an error
through the identical `if s.errOnce == nil` code and is covered by the same
event shape. -/

/-- `WorkflowError` (`workflow.go` lines 12-26). -/
structure WorkflowError where
  stepName : String
  workflowName : String
  err : String
deriving DecidableEq, Repr

/-- `WorkflowError.Error` (`workflow.go` lines 24-26). -/
def workflowErrorMessage (e : WorkflowError) : String :=
  "error in step '" ++ e.stepName ++ "' of workflow '" ++ e.workflowName ++ "': " ++ e.err

/-- The scheduler state relevant to error propagation, plus logs of which
lifecycle hooks fired (the Go code fires them inside the same critical
section). -/
structure SchedErrState where
  errOnce : Option WorkflowError
  failureHookLog : List (String × String)
  successHookLog : List String
deriving DecidableEq, Repr

/-- One critical section of `dagScheduler.runTask` after `task.Run()` returns
(`scheduler.go` lines 157-170): on error fire `OnTaskFailure` and store the
wrapped error only if `errOnce` is still empty; on success fire
`OnTaskSuccess`. -/
def processCompletion (wfName : String) (s : SchedErrState) (ev : String × Option String) :
    SchedErrState :=
  match ev.2 with
  | some e =>
    { errOnce :=
        match s.errOnce with
        | none => some ⟨ev.1, wfName, e⟩
        | some w => some w
      failureHookLog := s.failureHookLog ++ [(ev.1, e)]
      successHookLog := s.successHookLog }
  | none => { s with successHookLog := s.successHookLog ++ [ev.1] }

/-- The scheduler's error state after the workers' completion sections have
run in some serialisation order; `dagScheduler.run` returns `s.errOnce` on
every exit path (`scheduler.go` lines 84, 88, 96, 100). -/
def schedulerErrState (wfName : String) (completions : List (String × Option String)) :
    SchedErrState :=
  completions.foldl (processCompletion wfName) ⟨none, [], []⟩

/-- The failing completions, in serialisation order. -/
def failuresOf (evs : List (String × Option String)) : List (String × String) :=
  evs.filterMap (fun ev => ev.2.map (fun e => (ev.1, e)))

theorem schedulerErrState_foldl (wfName : String) (evs : List (String × Option String))
    (s : SchedErrState) :
    (evs.foldl (processCompletion wfName) s).errOnce =
      (match s.errOnce with
       | some w => some w
       | none => ((failuresOf evs).head?).map (fun p => ⟨p.1, wfName, p.2⟩)) ∧
    (evs.foldl (processCompletion wfName) s).failureHookLog =
      s.failureHookLog ++ failuresOf evs := by
  induction evs generalizing s with
  | nil => cases hs : s.errOnce <;> simp [failuresOf, hs]
  | cons ev evs ih =>
    obtain ⟨n, r⟩ := ev
    cases r with
    | none =>
      have h := ih ⟨s.errOnce, s.failureHookLog, s.successHookLog ++ [n]⟩
      cases hs : s.errOnce <;>
        simpa [failuresOf, List.foldl_cons, processCompletion, hs] using h
    | some e =>
      cases hs : s.errOnce with
      | some w =>
        have h := ih { errOnce := some w,
                       failureHookLog := s.failureHookLog ++ [(n, e)],
                       successHookLog := s.successHookLog }
        simpa [failuresOf, List.foldl_cons, processCompletion, hs] using h
      | none =>
        have h := ih { errOnce := some ⟨n, wfName, e⟩,
                       failureHookLog := s.failureHookLog ++ [(n, e)],
                       successHookLog := s.successHookLog }
        simpa [failuresOf, List.foldl_cons, processCompletion, hs] using h

/-- C3: if at least one worker reports an error — the first, in the mutex
serialisation order, being task `n` with error `e` — then the scheduler's
stored error is exactly `e` wrapped as a `WorkflowError` carrying the failing
step's name `n` and the workflow's name, later errors notwithstanding; and
every failing completion fires an `OnTaskFailure` hook, in order.  `run`
returns `errOnce` on every exit path, so that wrapped first error is the
run's return value. -/
theorem schedulerErrState_first_error (wfName : String)
    (evs : List (String × Option String)) (n e : String)
    (hfirst : (failuresOf evs).head? = some (n, e)) :
    (schedulerErrState wfName evs).errOnce = some ⟨n, wfName, e⟩ ∧
    (schedulerErrState wfName evs).failureHookLog = failuresOf evs := by
  have h := schedulerErrState_foldl wfName evs ⟨none, [], []⟩
  rw [schedulerErrState]
  refine ⟨?_, by simpa using h.2⟩
  rw [h.1]
  simp [hfirst]

/-- Witness for `schedulerErrState_first_error`: two failures; the stored and
returned error wraps the first, while both fire failure hooks. -/
theorem schedulerErrState_first_error_witness :
    (schedulerErrState "wf" [("a", some "boom"), ("b", none), ("c", some "late")]).errOnce =
      some ⟨"a", "wf", "boom"⟩ ∧
    (schedulerErrState "wf" [("a", some "boom"), ("b", none), ("c", some "late")]).failureHookLog =
      [("a", "boom"), ("c", "late")] := by
  have h := schedulerErrState_first_error "wf"
    [("a", some "boom"), ("b", none), ("c", some "late")] "a" "boom" rfl
  exact ⟨h.1, by rw [h.2]; rfl⟩

/-! ## The parallel DAG scheduler (`scheduler.go`)

The scheduler runs one worker goroutine per dispatched task; all shared state
(`depCount`, `started`, `completed`, `errOnce`) is guarded by the mutex
`s.mu`, and the only inter-section ordering is the program order inside each
worker.  The embedding is a small-step transition system whose atomic steps
are exactly the critical sections of the Go code, interleaved arbitrarily:

* `ready`  — the main loop pops a `ready` event from `eventCh` and runs
  `handleReady` (lines 90-93, 114-125): if the name is known and not yet
  started, mark it started and dispatch a worker;
* `complete` — the worker's first critical section after `task.Run()`
  returns (lines 157-178): record the task in `completed`;
* `hook` — the worker then fires `OnTaskComplete` outside the lock
  (line 179);
* `decrement` — the worker's final critical section (lines 182-189): for
  each dependent, decrement its `depCount` and, when it reaches zero and the
  dependent is not started, enqueue a `ready` event for it.

A task's control point is modelled by a `Phase` that only advances:
`notStarted → started → completed → hooked → decremented`; the last three
mark which of the worker's post-run sections have executed.  Cancellation
and the `done` event only remove behaviours (they stop the main loop), so
every dispatch the Go code can perform is a `ready` step of this system and
the safety property proved below covers the code. -/

/-- The fields of a task the scheduler reads: its name and `Depends` list. -/
structure TaskSpec where
  name : String
  depends : List String
deriving DecidableEq, Repr

/-- Control point of one task inside the scheduler run. -/
inductive Phase where
  | notStarted
  | started
  | completed
  | hooked
  | decremented
deriving DecidableEq, Repr

/-- Scheduler state: per-name phase, remaining-dependency counters, and the
multiset of pending `ready` events in `eventCh` (FIFO). -/
structure SchedState where
  phase : String → Phase
  depCount : String → Int
  queue : List String

/-- The `dependents` map built by `newDagScheduler` (lines 40-47): for each
task `t` in order and each occurrence of `dep` in `t.Depends`, append
`t.name` to `dependents[dep]`. -/
def dependentsOf (order : List TaskSpec) (dep : String) : List String :=
  (order.map (fun t => List.replicate (t.depends.count dep) t.name)).flatten

/-- Initial scheduler state (`newDagScheduler` lines 37-63 plus the seed phase
of `run`, lines 69-73): `depCount[t.Name] = len(t.Depends)` and a `ready`
event for every task with no dependencies. -/
def initState (order : List TaskSpec) : SchedState :=
  { phase := fun _ => .notStarted
    depCount := fun n =>
      match order.find? (fun t => t.name = n) with
      | some t => (t.depends.length : Int)
      | none => 0
    queue := (order.filter (fun t => t.depends.length = 0)).map (fun t => t.name) }

def setPhase (s : SchedState) (n : String) (p : Phase) : SchedState :=
  { s with phase := upd s.phase n p }

/-- `handleReady` (lines 114-125): if the name is in `taskMap` and not yet
started, mark it started (and dispatch its worker); otherwise drop the
event. -/
def handleReady (order : List TaskSpec) (s : SchedState) (n : String) : SchedState :=
  if order.any (fun t => t.name = n) then
    if s.phase n = .notStarted then setPhase s n .started else s
  else s

/-- One iteration of the dependent loop (lines 183-188): decrement the
dependent's counter; when it hits zero and the dependent has not started,
enqueue a `ready` event for it. -/
def applyDec (s : SchedState) (d : String) : SchedState :=
  let c := s.depCount d - 1
  { phase := s.phase
    depCount := upd s.depCount d c
    queue := if c = 0 ∧ s.phase d = .notStarted then s.queue ++ [d] else s.queue }

/-- The worker's final critical section for task `n` (lines 182-189), with the
ghost phase `decremented` recorded first (in the code, `started[n]` is already
true throughout, which is what `applyDec`'s phase test reads). -/
def decrementDependents (order : List TaskSpec) (s : SchedState) (n : String) : SchedState :=
  (dependentsOf order n).foldl applyDec (setPhase s n .decremented)

/-- The atomic steps of a scheduler run. -/
inductive SchedStep (order : List TaskSpec) : SchedState → SchedState → Prop
  | ready (s : SchedState) (n : String) (rest : List String) :
      s.queue = n :: rest →
      SchedStep order s (handleReady order { s with queue := rest } n)
  | complete (s : SchedState) (n : String) :
      s.phase n = .started →
      SchedStep order s (setPhase s n .completed)
  | hook (s : SchedState) (n : String) :
      s.phase n = .completed →
      SchedStep order s (setPhase s n .hooked)
  | decrement (s : SchedState) (n : String) :
      s.phase n = .hooked →
      SchedStep order s (decrementDependents order s n)

/-- States reachable by a scheduler run on `order`. -/
inductive SchedReachable (order : List TaskSpec) : SchedState → Prop
  | init : SchedReachable order (initState order)
  | step {s s' : SchedState} :
      SchedReachable order s → SchedStep order s s' → SchedReachable order s'

/-- The dependency occurrences of `t` whose decrement section has not yet
run. -/
def remainingDeps (s : SchedState) (t : TaskSpec) : Nat :=
  (t.depends.filter (fun a => s.phase a ≠ .decremented)).length

/-- The inductive invariant of the scheduler: (i) every counter equals the
number of not-yet-decremented dependency occurrences; (ii) every name with a
pending `ready` event has counter zero; (iii) every dispatched task's
dependencies have all been decremented. -/
def SchedInv (order : List TaskSpec) (s : SchedState) : Prop :=
  (∀ t ∈ order, s.depCount t.name = (remainingDeps s t : Int)) ∧
  (∀ n ∈ s.queue, s.depCount n = 0) ∧
  (∀ t ∈ order, s.phase t.name ≠ .notStarted → ∀ a ∈ t.depends, s.phase a = .decremented)

theorem dependentsOf_mem {order : List TaskSpec} {A B : String}
    (h : B ∈ dependentsOf order A) :
    ∃ t ∈ order, t.name = B ∧ 0 < t.depends.count A := by
  induction order with
  | nil => simp [dependentsOf] at h
  | cons u order ih =>
    rw [dependentsOf] at h
    simp only [List.map_cons, List.flatten_cons, List.mem_append] at h
    rcases h with h | h
    · rw [List.mem_replicate] at h
      exact ⟨u, List.mem_cons_self u order, h.2.symm, Nat.pos_of_ne_zero (by simpa using h.1)⟩
    · obtain ⟨t, ht, hn, hc⟩ := ih h
      exact ⟨t, List.mem_cons_of_mem u ht, hn, hc⟩

theorem dependentsOf_count {order : List TaskSpec}
    (hnd : (order.map TaskSpec.name).Nodup) {t : TaskSpec} (ht : t ∈ order) (A : String) :
    (dependentsOf order A).count t.name = t.depends.count A := by
  induction order with
  | nil => cases ht
  | cons u order ih =>
    rw [dependentsOf]
    simp only [List.map_cons, List.flatten_cons, List.count_append]
    rw [List.map_cons, List.nodup_cons] at hnd
    have hrest : dependentsOf order A = (order.map
        (fun t => List.replicate (t.depends.count A) t.name)).flatten := rfl
    rcases List.mem_cons.mp ht with rfl | ht'
    · have hzero : t.name ∉ dependentsOf order A := by
        intro hmem
        obtain ⟨t', ht', hn, _⟩ := dependentsOf_mem hmem
        exact hnd.1 (hn ▸ List.mem_map_of_mem TaskSpec.name ht')
      rw [← hrest, List.count_eq_zero.mpr hzero, List.count_replicate]
      simp
    · have hne : u.name ≠ t.name := by
        intro h
        exact hnd.1 (h ▸ List.mem_map_of_mem TaskSpec.name ht')
      rw [← hrest, ih hnd.2 ht', List.count_replicate]
      simp [hne, Ne.symm hne]

theorem find?_name_eq_of_nodup {order : List TaskSpec}
    (hnd : (order.map TaskSpec.name).Nodup) {t : TaskSpec} (ht : t ∈ order) :
    order.find? (fun u => u.name = t.name) = some t := by
  induction order with
  | nil => cases ht
  | cons u order ih =>
    rw [List.map_cons, List.nodup_cons] at hnd
    rcases List.mem_cons.mp ht with rfl | ht'
    · simp [List.find?_cons]
    · have hne : u.name ≠ t.name := by
        intro h
        exact hnd.1 (h ▸ List.mem_map_of_mem TaskSpec.name ht')
      rw [List.find?_cons]
      simp only [hne, decide_eq_true_eq, if_neg]
      · exact ih hnd.2 ht'

theorem setPhase_phase_same {s : SchedState} {n : String} {p : Phase} :
    (setPhase s n p).phase n = p := upd_same _ _ _

theorem setPhase_phase_ne {s : SchedState} {n a : String} {p : Phase} (h : a ≠ n) :
    (setPhase s n p).phase a = s.phase a := upd_ne _ _ _ _ h

/-- Lifting "already decremented" through a phase update that is not itself a
decrement of that name. -/
theorem phase_dec_lift {s : SchedState} {n a : String} {p : Phase}
    (hn : s.phase n ≠ .decremented) (ha : s.phase a = .decremented) :
    (setPhase s n p).phase a = .decremented := by
  by_cases h : a = n
  · subst h; exact absurd ha hn
  · rw [setPhase_phase_ne h]; exact ha

/-- A phase update between two non-`decremented` phases does not change any
remaining-dependency count. -/
theorem remainingDeps_setPhase {s : SchedState} {n : String} {p : Phase}
    (h1 : s.phase n ≠ .decremented) (h2 : p ≠ .decremented) (t : TaskSpec) :
    remainingDeps (setPhase s n p) t = remainingDeps s t := by
  unfold remainingDeps
  congr 1
  apply List.filter_congr
  intro a _
  by_cases h : a = n
  · subst h
    simp [setPhase_phase_same, h1, h2]
  · rw [setPhase_phase_ne h]

theorem filter_upd_dec_length (ph : String → Phase) (n : String)
    (h1 : ph n ≠ .decremented) :
    ∀ l : List String,
      (l.filter (fun a => upd ph n Phase.decremented a ≠ Phase.decremented)).length
          + l.count n
        = (l.filter (fun a => ph a ≠ Phase.decremented)).length
  | [] => by simp
  | a :: l => by
    have ih := filter_upd_dec_length ph n h1 l
    by_cases h : a = n
    · subst h
      rw [List.count_cons_self]
      simp only [List.filter_cons, upd_same]
      rw [if_neg (by simp), if_pos (by simpa using h1)]
      simp only [List.length_cons]
      omega
    · rw [List.count_cons_of_ne (Ne.symm h)]
      simp only [List.filter_cons, upd_ne ph n a Phase.decremented h]
      by_cases hp : ph a = Phase.decremented
      · rw [if_neg (by simp [hp]), if_neg (by simp [hp])]
        exact ih
      · rw [if_pos (by simpa using hp), if_pos (by simpa using hp)]
        simp only [List.length_cons]
        omega

/-- Marking `n` decremented removes exactly the occurrences of `n` from every
remaining-dependency count. -/
theorem remainingDeps_setPhase_dec {s : SchedState} {n : String}
    (h1 : s.phase n ≠ .decremented) (t : TaskSpec) :
    remainingDeps (setPhase s n .decremented) t + t.depends.count n = remainingDeps s t := by
  have h := filter_upd_dec_length s.phase n h1 t.depends
  simpa [remainingDeps, setPhase] using h

theorem foldl_applyDec_phase (ds : List String) (s : SchedState) :
    (ds.foldl applyDec s).phase = s.phase := by
  induction ds generalizing s with
  | nil => rfl
  | cons d ds ih => rw [List.foldl_cons, ih]; rfl

theorem foldl_applyDec_count (ds : List String) (s : SchedState) (B : String) :
    (ds.foldl applyDec s).depCount B = s.depCount B - (ds.count B : Int) := by
  induction ds generalizing s with
  | nil => simp
  | cons d ds ih =>
    rw [List.foldl_cons, ih]
    have hcnt : (applyDec s d).depCount B =
        if B = d then s.depCount B - 1 else s.depCount B := by
      by_cases h : B = d
      · subst h
        simp [applyDec, upd_same]
      · simp [applyDec, upd_ne _ _ _ _ h, h]
    rw [hcnt]
    by_cases h : B = d
    · subst h
      rw [List.count_cons_self, if_pos rfl]
      push_cast
      ring
    · rw [List.count_cons_of_ne h, if_neg h]

theorem foldl_applyDec_queue (ds : List String) (s : SchedState)
    (hge : ∀ B ∈ ds, (ds.count B : Int) ≤ s.depCount B)
    (hq : ∀ n ∈ s.queue, s.depCount n = 0) :
    ∀ n ∈ (ds.foldl applyDec s).queue, (ds.foldl applyDec s).depCount n = 0 := by
  induction ds generalizing s with
  | nil => exact hq
  | cons d ds ih =>
    rw [List.foldl_cons]
    have hd := hge d (List.mem_cons_self d ds)
    rw [List.count_cons_self] at hd
    have hdpos : 1 ≤ s.depCount d := by
      have : (0 : Int) ≤ (ds.count d : Int) := Int.ofNat_nonneg _
      omega
    apply ih
    · intro B hB
      by_cases h : B = d
      · subst h
        show (ds.count B : Int) ≤ upd s.depCount B (s.depCount B - 1) B
        rw [upd_same]
        omega
      · have := hge B (List.mem_cons_of_mem d hB)
        rw [List.count_cons_of_ne h] at this
        show (ds.count B : Int) ≤ upd s.depCount d (s.depCount d - 1) B
        rw [upd_ne _ _ _ _ h]
        exact this
    · intro n hn
      show upd s.depCount d (s.depCount d - 1) n = 0
      have hq' : (applyDec s d).queue =
          if s.depCount d - 1 = 0 ∧ s.phase d = .notStarted
          then s.queue ++ [d] else s.queue := rfl
      by_cases hcond : s.depCount d - 1 = 0 ∧ s.phase d = .notStarted
      · rw [hq', if_pos hcond] at hn
        rcases List.mem_append.mp hn with hmem | hmem
        · have hn0 := hq n hmem
          have hne : n ≠ d := fun h => by rw [h] at hn0; omega
          rw [upd_ne _ _ _ _ hne]
          exact hn0
        · have hnd2 : n = d := by simpa using hmem
          subst hnd2
          rw [upd_same]
          exact hcond.1
      · rw [hq', if_neg hcond] at hn
        have hn0 := hq n hn
        have hne : n ≠ d := fun h => by rw [h] at hn0; omega
        rw [upd_ne _ _ _ _ hne]
        exact hn0

/-- The scheduler invariant holds initially. -/
theorem schedInv_init (order : List TaskSpec) (hnd : (order.map TaskSpec.name).Nodup) :
    SchedInv order (initState order) := by
  refine ⟨?_, ?_, ?_⟩
  · intro t ht
    have h1 : (initState order).depCount t.name = (t.depends.length : Int) := by
      simp only [initState]
      rw [find?_name_eq_of_nodup hnd ht]
    have h2 : remainingDeps (initState order) t = t.depends.length := by
      unfold remainingDeps
      have hf : t.depends.filter
          (fun a => (initState order).phase a ≠ Phase.decremented) = t.depends :=
        List.filter_eq_self.mpr (fun a _ => by simp [initState])
      rw [hf]
    rw [h1, h2]
  · intro n hn
    simp only [initState, List.mem_map, List.mem_filter] at hn
    obtain ⟨t, ⟨ht, hlen⟩, hname⟩ := hn
    have h1 : (initState order).depCount n = (t.depends.length : Int) := by
      simp only [initState]
      rw [← hname, find?_name_eq_of_nodup hnd ht]
    simp only [decide_eq_true_eq] at hlen
    rw [h1, hlen]
    rfl
  · intro t _ hdisp
    exact absurd rfl hdisp

/-- The scheduler invariant is preserved by every atomic step. -/
theorem schedInv_preserved {order : List TaskSpec}
    (hnd : (order.map TaskSpec.name).Nodup) {s s' : SchedState}
    (hinv : SchedInv order s) (hstep : SchedStep order s s') : SchedInv order s' := by
  obtain ⟨ha, hb, hc⟩ := hinv
  cases hstep with
  | ready n rest hq =>
    by_cases hmem : order.any (fun t => t.name = n)
    · by_cases hph : s.phase n = Phase.notStarted
      · have hred : handleReady order { s with queue := rest } n =
            setPhase { s with queue := rest } n .started := by
          rw [handleReady, if_pos hmem, if_pos hph]
        rw [hred]
        have hold : s.phase n ≠ Phase.decremented := by rw [hph]; simp
        refine ⟨?_, ?_, ?_⟩
        · intro t ht
          show s.depCount t.name = _
          rw [ha t ht]
          congr 1
          exact (remainingDeps_setPhase (s := { s with queue := rest }) hold (by simp) t).symm
        · intro m hm
          exact hb m (by rw [hq]; exact List.mem_cons_of_mem n hm)
        · intro t ht hdisp a haDep
          by_cases hteq : t.name = n
          · have hzero : s.depCount n = 0 := hb n (by rw [hq]; exact List.mem_cons_self n rest)
            have hrem0 : remainingDeps s t = 0 := by
              have h1 := ha t ht
              rw [hteq, hzero] at h1
              exact_mod_cast h1.symm
            have hall : ∀ b ∈ t.depends, s.phase b = Phase.decremented := by
              unfold remainingDeps at hrem0
              rw [List.length_eq_zero] at hrem0
              intro b hbmem
              by_contra hcontra
              have : b ∈ t.depends.filter
                  (fun a => s.phase a ≠ Phase.decremented) := by
                rw [List.mem_filter]
                exact ⟨hbmem, by simpa using hcontra⟩
              rw [hrem0] at this
              cases this
            exact phase_dec_lift hold (hall a haDep)
          · have hdisp0 : s.phase t.name ≠ Phase.notStarted := by
              rwa [setPhase_phase_ne hteq] at hdisp
            exact phase_dec_lift hold (hc t ht hdisp0 a haDep)
      · have hred : handleReady order { s with queue := rest } n =
            { s with queue := rest } := by
          rw [handleReady, if_pos hmem, if_neg hph]
        rw [hred]
        exact ⟨fun t ht => ha t ht,
          fun m hm => hb m (by rw [hq]; exact List.mem_cons_of_mem n hm),
          fun t ht hdisp a haDep => hc t ht hdisp a haDep⟩
    · have hred : handleReady order { s with queue := rest } n =
          { s with queue := rest } := by
        rw [handleReady, if_neg hmem]
      rw [hred]
      exact ⟨fun t ht => ha t ht,
        fun m hm => hb m (by rw [hq]; exact List.mem_cons_of_mem n hm),
        fun t ht hdisp a haDep => hc t ht hdisp a haDep⟩
  | complete n hph =>
    have hold : s.phase n ≠ Phase.decremented := by rw [hph]; simp
    refine ⟨?_, hb, ?_⟩
    · intro t ht
      show s.depCount t.name = _
      rw [ha t ht]
      congr 1
      exact (remainingDeps_setPhase hold (by simp) t).symm
    · intro t ht hdisp a haDep
      have hdisp0 : s.phase t.name ≠ Phase.notStarted := by
        by_cases hteq : t.name = n
        · rw [hteq, hph]; simp
        · rwa [setPhase_phase_ne hteq] at hdisp
      exact phase_dec_lift hold (hc t ht hdisp0 a haDep)
  | hook n hph =>
    have hold : s.phase n ≠ Phase.decremented := by rw [hph]; simp
    refine ⟨?_, hb, ?_⟩
    · intro t ht
      show s.depCount t.name = _
      rw [ha t ht]
      congr 1
      exact (remainingDeps_setPhase hold (by simp) t).symm
    · intro t ht hdisp a haDep
      have hdisp0 : s.phase t.name ≠ Phase.notStarted := by
        by_cases hteq : t.name = n
        · rw [hteq, hph]; simp
        · rwa [setPhase_phase_ne hteq] at hdisp
      exact phase_dec_lift hold (hc t ht hdisp0 a haDep)
  | decrement n hph =>
    have hold : s.phase n ≠ Phase.decremented := by rw [hph]; simp
    have hphase' : (decrementDependents order s n).phase = upd s.phase n Phase.decremented :=
      foldl_applyDec_phase (dependentsOf order n) (setPhase s n Phase.decremented)
    have hge : ∀ B ∈ dependentsOf order n,
        ((dependentsOf order n).count B : Int)
          ≤ (setPhase s n Phase.decremented).depCount B := by
      intro B hB
      obtain ⟨t, ht, hname, _⟩ := dependentsOf_mem hB
      have hcnt : (dependentsOf order n).count B = t.depends.count n := by
        rw [← hname]
        exact dependentsOf_count hnd ht n
      have hle : t.depends.count n ≤ remainingDeps s t := by
        unfold remainingDeps
        calc t.depends.count n
            = (t.depends.filter (fun a => s.phase a ≠ Phase.decremented)).count n := by
              rw [List.count_filter (by simpa using hold)]
          _ ≤ _ := List.count_le_length _ _
      have hcount := ha t ht
      show ((dependentsOf order n).count B : Int) ≤ s.depCount B
      rw [hcnt, ← hname, hcount]
      exact_mod_cast hle
    refine ⟨?_, ?_, ?_⟩
    · intro t ht
      show ((dependentsOf order n).foldl applyDec
            (setPhase s n Phase.decremented)).depCount t.name
          = (remainingDeps ((dependentsOf order n).foldl applyDec
            (setPhase s n Phase.decremented)) t : Int)
      rw [foldl_applyDec_count]
      have h1 := ha t ht
      have h2 : (dependentsOf order n).count t.name = t.depends.count n :=
        dependentsOf_count hnd ht n
      have h3 : remainingDeps ((dependentsOf order n).foldl applyDec
            (setPhase s n Phase.decremented)) t
          = remainingDeps (setPhase s n Phase.decremented) t := by
        unfold remainingDeps
        rw [show ((dependentsOf order n).foldl applyDec
            (setPhase s n Phase.decremented)).phase
            = (setPhase s n Phase.decremented).phase from foldl_applyDec_phase _ _]
      have h4 := remainingDeps_setPhase_dec hold t
      show s.depCount t.name - ((dependentsOf order n).count t.name : Int) = _
      rw [h1, h2, h3]
      omega
    · intro m hm
      exact foldl_applyDec_queue _ _ hge (fun m hm => hb m hm) m hm
    · intro t ht hdisp a haDep
      rw [hphase'] at hdisp
      show ((dependentsOf order n).foldl applyDec
          (setPhase s n Phase.decremented)).phase a = Phase.decremented
      rw [show ((dependentsOf order n).foldl applyDec
          (setPhase s n Phase.decremented)).phase = upd s.phase n Phase.decremented
          from hphase']
      by_cases hteq : t.name = n
      · have hdisp0 : s.phase t.name ≠ Phase.notStarted := by rw [hteq, hph]; simp
        have hdec := hc t ht hdisp0 a haDep
        by_cases han : a = n
        · subst han; exact upd_same _ _ _
        · rw [upd_ne _ _ _ _ han]; exact hdec
      · have hdisp0 : s.phase t.name ≠ Phase.notStarted := by
          rwa [upd_ne _ _ _ _ hteq] at hdisp
        have hdec := hc t ht hdisp0 a haDep
        by_cases han : a = n
        · subst han; exact upd_same _ _ _
        · rw [upd_ne _ _ _ _ han]; exact hdec

/-- The scheduler invariant holds in every reachable state. -/
theorem schedInv_reachable {order : List TaskSpec}
    (hnd : (order.map TaskSpec.name).Nodup) {s : SchedState}
    (hr : SchedReachable order s) : SchedInv order s := by
  induction hr with
  | init => exact schedInv_init order hnd
  | step _ hstep ih => exact schedInv_preserved hnd ih hstep

/-- C1: in every reachable state of a scheduler run over tasks with distinct
names, a task `t` that has been dispatched (its worker started, so its phase
left `notStarted`) has every dependency `a` in phase `decremented` — meaning
`a`'s worker has already marked it completed, fired its `OnTaskComplete`
hook, and run its dependent-decrement section.  This holds because `depCount`
of a task is decremented only by the post-`OnTaskComplete` section of a
completed dependency's worker, and a `ready` event is enqueued only when the
count reaches zero for a not-yet-started task, so every dependency completes
(and its `on_complete` fires) before the dependent is dispatched. -/
theorem scheduler_dispatch_after_deps (order : List TaskSpec) (s : SchedState)
    (hnd : (order.map TaskSpec.name).Nodup) (hr : SchedReachable order s)
    (t : TaskSpec) (ht : t ∈ order) (hdisp : s.phase t.name ≠ .notStarted)
    (a : String) (ha : a ∈ t.depends) : s.phase a = .decremented :=
  (schedInv_reachable hnd hr).2.2 t ht hdisp a ha

/-- A concrete two-task run used to witness `scheduler_dispatch_after_deps`:
`B` depends on `A`; after `A` runs to completion and `B` is dispatched, `A`
is fully decremented. -/
def demoOrder : List TaskSpec := [⟨"A", []⟩, ⟨"B", ["A"]⟩]

def demoS1 : SchedState := handleReady demoOrder { initState demoOrder with queue := [] } "A"

def demoS2 : SchedState := setPhase demoS1 "A" .completed

def demoS3 : SchedState := setPhase demoS2 "A" .hooked

def demoS4 : SchedState := decrementDependents demoOrder demoS3 "A"

def demoS5 : SchedState := handleReady demoOrder { demoS4 with queue := [] } "B"

/-- Witness for `scheduler_dispatch_after_deps` on the concrete run. -/
theorem scheduler_dispatch_after_deps_witness :
    demoS5.phase "B" ≠ Phase.notStarted ∧ demoS5.phase "A" = Phase.decremented := by
  have hreach : SchedReachable demoOrder demoS5 := by
    have h0 : SchedReachable demoOrder (initState demoOrder) := .init
    have h1 : SchedReachable demoOrder demoS1 :=
      .step h0 (.ready (initState demoOrder) "A" [] (by decide))
    have h2 : SchedReachable demoOrder demoS2 :=
      .step h1 (.complete demoS1 "A" (by decide))
    have h3 : SchedReachable demoOrder demoS3 :=
      .step h2 (.hook demoS2 "A" (by decide))
    have h4 : SchedReachable demoOrder demoS4 :=
      .step h3 (.decrement demoS3 "A" (by decide))
    exact .step h4 (.ready demoS4 "B" [] (by decide))
  refine ⟨by decide, ?_⟩
  exact scheduler_dispatch_after_deps demoOrder demoS5 (by decide) hreach
    ⟨"B", ["A"]⟩ (by decide) (by decide) "A" (by decide)

/-! ## Topological ordering (`dag.go`, `GetTopologicalOrder`, lines 113-156)

The method first re-checks missing dependencies, then runs Kahn's algorithm
over fresh in-degrees, draining a queue seeded with the zero-in-degree names
and following the `edges` map; if fewer names emerge than are registered, it
reports `"cycle detected in DAG"`.  The Go loop terminates because every
iteration emits one name and names are never re-enqueued; the embedding makes
that bound explicit with a fuel parameter of `|nodes| + 1`, proved sufficient
below (the fuel-exhausted branch is unreachable from the initial state). -/

def nodeKeys (d : DAG) : List String := d.nodes.map (fun p => p.1)

/-- `node.Deps` of the registered node called `n` (empty for unknown names,
which matches Go's zero-value map reads). -/
def depsOf (d : DAG) (n : String) : List String :=
  match alookup d.nodes n with
  | some t => t.deps
  | none => []

/-- `d.edges[n]` with Go's zero-value semantics. -/
def edgesOf (d : DAG) (n : String) : List String := (alookup d.edges n).getD []

/-- The missing-dependency scan shared by `Validate` and
`GetTopologicalOrder` (`dag.go` lines 69-76 and 116-123), iterating nodes in
insertion order. -/
def checkMissing (d : DAG) : Option String :=
  d.nodes.findSome? (fun p => p.2.deps.findSome? (fun dep =>
    if (alookup d.nodes dep).isSome then none
    else some ("dependency " ++ dep ++ " for task " ++ p.2.name ++ " does not exist")))

/-- One iteration of `for _, dependent := range d.edges[curr]` (`dag.go`
lines 145-150): decrement the dependent's in-degree and enqueue it when the
count reaches zero. -/
def kahnDecStep (acc : (String → Int) × List String) (dep : String) :
    (String → Int) × List String :=
  let c := acc.1 dep - 1
  (upd acc.1 dep c, if c = 0 then acc.2 ++ [dep] else acc.2)

/-- The main Kahn loop (`dag.go` lines 141-151): pop the queue head, emit it,
and process its dependents. -/
def kahnLoop (d : DAG) : Nat → List String → (String → Int) → List String → List String
  | 0, _, _, out => out
  | _ + 1, [], _, out => out
  | fuel + 1, curr :: rest, deg, out =>
    let p := (edgesOf d curr).foldl kahnDecStep (deg, rest)
    kahnLoop d fuel p.2 p.1 (out ++ [curr])

/-- The in-degree map built in `dag.go` lines 125-133: every registered name
starts at the length of its `Deps` list (unknown names read as 0, the Go map
zero value). -/
def initialInDegree (d : DAG) : String → Int :=
  fun n => ((depsOf d n).length : Int)

/-- The seed queue of zero-in-degree names (`dag.go` lines 134-139),
determinised in node insertion order. -/
def seedQueue (d : DAG) : List String :=
  (d.nodes.filter (fun p => p.2.deps.length = 0)).map (fun p => p.1)

/-- `DAG.GetTopologicalOrder` (`dag.go` lines 113-156), emitting task names
(the emitted `*Task` pointers are exactly the registered tasks of those
names).  The Go version also returns the partial order next to the cycle
error; only the error matters to callers and to the claims. -/
def getTopologicalOrder (d : DAG) : Except String (List String) :=
  match checkMissing d with
  | some e => .error e
  | none =>
    let out := kahnLoop d (d.nodes.length + 1) (seedQueue d) (initialInDegree d) []
    if out.length = d.nodes.length then .ok out else .error "cycle detected in DAG"

/-- The dependency step relation: `a` depends on `b` (there is a DFS / Kahn
edge from `a` to `b` in `Deps` direction). -/
def depStep (d : DAG) (a b : String) : Prop := b ∈ depsOf d a

/-- No name lies on a nonempty `Deps`-cycle. -/
def Acyclic (d : DAG) : Prop := ∀ x, ¬ Relation.TransGen (depStep d) x x

/-- All referenced dependencies are registered. -/
def NoMissing (d : DAG) : Prop :=
  ∀ p ∈ d.nodes, ∀ a ∈ p.2.deps, (alookup d.nodes a).isSome

/-- `edges` is consistent with the nodes' `Deps` lists, as `AddTask`
maintains: edge lists only name registered tasks, and the multiplicity of
`B` in `edges[A]` is the multiplicity of `A` in `B`'s `Deps`. -/
def EdgesOk (d : DAG) : Prop :=
  (∀ p ∈ d.edges, ∀ B ∈ p.2, B ∈ nodeKeys d) ∧
  (∀ A ∈ nodeKeys d, ∀ B ∈ nodeKeys d, (edgesOf d A).count B = (depsOf d B).count A)

theorem alookup_isSome_iff {β : Type} (m : List (String × β)) (k : String) :
    (alookup m k).isSome ↔ k ∈ m.map (fun p => p.1) := by
  rw [alookup]
  cases hf : m.find? (fun p => p.1 = k) with
  | none =>
    simp only [Option.isSome_none, Bool.false_eq_true, false_iff]
    intro hmem
    obtain ⟨p, hp, hpk⟩ := List.mem_map.mp hmem
    have := List.find?_eq_none.mp hf p hp
    simp [hpk] at this
  | some p =>
    have h1 := List.find?_some hf
    have h2 := List.mem_of_find?_eq_some hf
    simp only [decide_eq_true_eq] at h1
    simp only [Option.isSome_some, true_iff]
    exact h1 ▸ List.mem_map_of_mem (fun p => p.1) h2

theorem alookup_mem {β : Type} {m : List (String × β)} {k : String} {v : β}
    (h : alookup m k = some v) : (k, v) ∈ m := by
  rw [alookup] at h
  cases hf : m.find? (fun p => p.1 = k) with
  | none => rw [hf] at h; cases h
  | some p =>
    rw [hf] at h
    have h1 := List.find?_some hf
    have h2 := List.mem_of_find?_eq_some hf
    simp only [decide_eq_true_eq] at h1
    cases h
    have : p = (p.1, p.2) := rfl
    rw [← h1]
    exact this ▸ h2

theorem alookup_self_of_nodup {β : Type} {m : List (String × β)}
    (hnd : (m.map (fun p => p.1)).Nodup) {p : String × β} (hp : p ∈ m) :
    alookup m p.1 = some p.2 := by
  induction m with
  | nil => cases hp
  | cons q m ih =>
    rw [List.map_cons, List.nodup_cons] at hnd
    rcases List.mem_cons.mp hp with rfl | hp'
    · rw [alookup, List.find?_cons_of_pos _ (by simp)]
    · have hne : q.1 ≠ p.1 := by
        intro h
        exact hnd.1 (h ▸ List.mem_map_of_mem (fun p => p.1) hp')
      rw [alookup, List.find?_cons_of_neg _ (by simpa using hne)]
      exact ih hnd.2 hp'

theorem kahnFold_count (ds : List String) (deg : String → Int) (q : List String)
    (B : String) :
    (ds.foldl kahnDecStep (deg, q)).1 B = deg B - (ds.count B : Int) := by
  induction ds generalizing deg q with
  | nil => simp
  | cons d ds ih =>
    rw [List.foldl_cons]
    have hstep : kahnDecStep (deg, q) d =
        (upd deg d (deg d - 1),
         if deg d - 1 = 0 then q ++ [d] else q) := rfl
    rw [hstep, ih]
    by_cases h : B = d
    · subst h
      rw [List.count_cons_self, upd_same]
      push_cast
      ring
    · rw [List.count_cons_of_ne h, upd_ne _ _ _ _ h]

theorem kahnFold_queue_mono (ds : List String) (deg : String → Int) (q : List String) :
    ∀ m ∈ q, m ∈ (ds.foldl kahnDecStep (deg, q)).2 := by
  induction ds generalizing deg q with
  | nil => exact fun m hm => hm
  | cons d ds ih =>
    intro m hm
    rw [List.foldl_cons]
    apply ih
    show m ∈ if deg d - 1 = 0 then q ++ [d] else q
    split
    · exact List.mem_append_left _ hm
    · exact hm

/-- Behaviour of one dependent-processing pass, given that no counter is
decremented past its multiplicity (`hge`), that queued names already have
counter zero (`hq0`), and that the queue has no duplicates (`hqnd`): queued
names keep counter zero, the queue stays duplicate-free, new queue entries
come from the processed list, and every processed name whose counter ends at
zero has been enqueued. -/
theorem kahnFold_queue (ds : List String) (deg : String → Int) (q : List String)
    (hge : ∀ B ∈ ds, (ds.count B : Int) ≤ deg B)
    (hq0 : ∀ m ∈ q, deg m = 0)
    (hqnd : q.Nodup) :
    (∀ m ∈ (ds.foldl kahnDecStep (deg, q)).2, (ds.foldl kahnDecStep (deg, q)).1 m = 0) ∧
    (ds.foldl kahnDecStep (deg, q)).2.Nodup ∧
    (∀ m ∈ (ds.foldl kahnDecStep (deg, q)).2, m ∈ q ∨ m ∈ ds) ∧
    (∀ B ∈ ds, (ds.foldl kahnDecStep (deg, q)).1 B = 0 →
      B ∈ (ds.foldl kahnDecStep (deg, q)).2) := by
  induction ds generalizing deg q with
  | nil => exact ⟨hq0, hqnd, fun m hm => Or.inl hm, fun B hB => absurd hB (by simp)⟩
  | cons d ds ih =>
    have hd := hge d (List.mem_cons_self d ds)
    rw [List.count_cons_self] at hd
    have hd1 : 1 ≤ deg d := by
      have : (0 : Int) ≤ (ds.count d : Int) := Int.ofNat_nonneg _
      omega
    have hdq : d ∉ q := by
      intro hmem
      have := hq0 d hmem
      omega
    rw [List.foldl_cons]
    have hstep : kahnDecStep (deg, q) d =
        (upd deg d (deg d - 1),
         if deg d - 1 = 0 then q ++ [d] else q) := rfl
    rw [hstep]
    have hge' : ∀ B ∈ ds, (ds.count B : Int) ≤ upd deg d (deg d - 1) B := by
      intro B hB
      by_cases h : B = d
      · subst h
        rw [upd_same]
        omega
      · rw [upd_ne _ _ _ _ h]
        have := hge B (List.mem_cons_of_mem d hB)
        rw [List.count_cons_of_ne h] at this
        exact this
    by_cases hzero : deg d - 1 = 0
    · have hds0 : ds.count d = 0 := by omega
      rw [if_pos hzero]
      have hq0' : ∀ m ∈ q ++ [d], upd deg d (deg d - 1) m = 0 := by
        intro m hm
        rcases List.mem_append.mp hm with hm' | hm'
        · have h0 := hq0 m hm'
          have hne : m ≠ d := fun h => hdq (h ▸ hm')
          rw [upd_ne _ _ _ _ hne]
          exact h0
        · have : m = d := by simpa using hm'
          subst this
          rw [upd_same]
          exact hzero
      have hqnd' : (q ++ [d]).Nodup := by
        rw [List.nodup_append]
        exact ⟨hqnd, List.nodup_singleton d, by simpa using hdq⟩
      obtain ⟨c1, c2, c3, c4⟩ := ih (upd deg d (deg d - 1)) (q ++ [d]) hge' hq0' hqnd'
      refine ⟨c1, c2, ?_, ?_⟩
      · intro m hm
        rcases c3 m hm with hm' | hm'
        · rcases List.mem_append.mp hm' with h | h
          · exact Or.inl h
          · have hmd : m = d := by simpa using h
            exact Or.inr (hmd ▸ List.mem_cons_self d ds)
        · exact Or.inr (List.mem_cons_of_mem d hm')
      · intro B hB hcnt
        rcases List.mem_cons.mp hB with rfl | hB'
        · exact kahnFold_queue_mono ds _ _ B (List.mem_append_right q (by simp))
        · exact c4 B hB' hcnt
    · rw [if_neg hzero]
      have hq0' : ∀ m ∈ q, upd deg d (deg d - 1) m = 0 := by
        intro m hm
        have h0 := hq0 m hm
        have hne : m ≠ d := fun h => hdq (h ▸ hm)
        rw [upd_ne _ _ _ _ hne]
        exact h0
      obtain ⟨c1, c2, c3, c4⟩ := ih (upd deg d (deg d - 1)) q hge' hq0' hqnd
      refine ⟨c1, c2, ?_, ?_⟩
      · intro m hm
        rcases c3 m hm with hm' | hm'
        · exact Or.inl hm'
        · exact Or.inr (List.mem_cons_of_mem d hm')
      · intro B hB hcnt
        rcases List.mem_cons.mp hB with rfl | hB'
        · by_cases hBds : B ∈ ds
          · exact c4 B hBds hcnt
          · exfalso
            rw [kahnFold_count] at hcnt
            rw [List.count_eq_zero.mpr hBds] at hcnt
            rw [upd_same] at hcnt
            simp only [Nat.cast_zero, sub_zero] at hcnt
            exact hzero hcnt
        · exact c4 B hB' hcnt

/-- Emitting `curr` (not previously emitted) removes exactly the occurrences
of `curr` from every name's not-yet-emitted dependency count. -/
theorem filter_length_emit (l out : List String) (curr : String) (h : curr ∉ out) :
    (l.filter (fun a => a ∉ out ++ [curr])).length + l.count curr
      = (l.filter (fun a => a ∉ out)).length := by
  induction l with
  | nil => simp
  | cons a l ih =>
    by_cases hac : a = curr
    · subst hac
      rw [List.count_cons_self]
      simp only [List.filter_cons]
      rw [if_neg (by simp), if_pos (by simpa using h)]
      simp only [List.length_cons]
      omega
    · rw [List.count_cons_of_ne (Ne.symm hac)]
      simp only [List.filter_cons]
      by_cases hmem : a ∈ out
      · rw [if_neg (by simp [hmem]), if_neg (by simp [hmem])]
        exact ih
      · rw [if_pos (by simp [hmem, hac]), if_pos (by simpa using hmem)]
        simp only [List.length_cons]
        omega

theorem nodup_subset_length_le {l₁ l₂ : List String} (hnd : l₁.Nodup)
    (hsub : ∀ x ∈ l₁, x ∈ l₂) : l₁.length ≤ l₂.length := by
  calc l₁.length = l₁.toFinset.card := (List.toFinset_card_of_nodup hnd).symm
    _ ≤ l₂.toFinset.card := Finset.card_le_card (fun x hx =>
        List.mem_toFinset.mpr (hsub x (List.mem_toFinset.mp hx)))
    _ ≤ l₂.length := List.toFinset_card_le l₂

/-- A nonempty finite set in which every element has an `R`-successor inside
the set contains an `R`-cycle. -/
theorem exists_cycle_of_succ (S : List String) (R : String → String → Prop)
    (hS : S ≠ []) (h : ∀ b ∈ S, ∃ a ∈ S, R b a) :
    ∃ x, Relation.TransGen R x x := by
  classical
  obtain ⟨b₀, hb₀⟩ := List.exists_mem_of_ne_nil S hS
  let f : {x // x ∈ S} → {x // x ∈ S} := fun x =>
    ⟨(h x.1 x.2).choose, (h x.1 x.2).choose_spec.1⟩
  have hf : ∀ x : {x // x ∈ S}, R x.1 (f x).1 := fun x => (h x.1 x.2).choose_spec.2
  let g : Nat → {x // x ∈ S} := fun n => f^[n] ⟨b₀, hb₀⟩
  have hstep : ∀ n, R (g n).1 (g (n + 1)).1 := by
    intro n
    have hg : g (n + 1) = f (g n) := Function.iterate_succ_apply' f n _
    rw [hg]
    exact hf (g n)
  have hchain : ∀ i j, i < j → Relation.TransGen R (g i).1 (g j).1 := by
    intro i j hij
    induction j with
    | zero => omega
    | succ j ihj =>
      rcases Nat.lt_succ_iff_lt_or_eq.mp hij with h' | h'
      · exact (ihj h').tail (hstep j)
      · subst h'
        exact Relation.TransGen.single (hstep i)
  have hmaps : ∀ i ∈ (Finset.univ : Finset (Fin (S.length + 1))),
      (g i.1).1 ∈ S.toFinset := fun i _ => List.mem_toFinset.mpr (g i.1).2
  have hcard : S.toFinset.card < (Finset.univ : Finset (Fin (S.length + 1))).card := by
    have h1 : S.toFinset.card ≤ S.length := List.toFinset_card_le S
    rw [Finset.card_univ, Fintype.card_fin]
    omega
  obtain ⟨i, _, j, _, hij, heq⟩ :=
    Finset.exists_ne_map_eq_of_card_lt_of_maps_to hcard hmaps
  rcases lt_or_gt_of_ne (show i.1 ≠ j.1 from fun h => hij (Fin.ext h)) with h' | h'
  · refine ⟨(g i.1).1, ?_⟩
    have hc := hchain i.1 j.1 h'
    rwa [← heq] at hc
  · refine ⟨(g j.1).1, ?_⟩
    have hc := hchain j.1 i.1 h'
    rwa [heq] at hc

/-- The Kahn loop invariant, over the current in-degrees, queue, and emitted
prefix. -/
structure KInv (d : DAG) (deg : String → Int) (q out : List String) : Prop where
  count_eq : ∀ B ∈ nodeKeys d,
    deg B = (((depsOf d B).filter (fun a => a ∉ out)).length : Int)
  out_nodup : out.Nodup
  q_nodup : q.Nodup
  disj : ∀ x ∈ out, x ∉ q
  out_sub : ∀ x ∈ out, x ∈ nodeKeys d
  q_sub : ∀ x ∈ q, x ∈ nodeKeys d
  q_deps : ∀ B ∈ q, ∀ a ∈ depsOf d B, a ∈ out
  out_order : ∀ n ∈ out, ∀ a ∈ depsOf d n, a ∈ out ∧ out.indexOf a < out.indexOf n
  zero_in : ∀ B ∈ nodeKeys d, deg B = 0 → B ∈ out ∨ B ∈ q

theorem KInv.deg_zero_of_deps_out {d : DAG} {deg : String → Int} {q out : List String}
    (hi : KInv d deg q out) {B : String} (hB : B ∈ nodeKeys d)
    (h : ∀ a ∈ depsOf d B, a ∈ out) : deg B = 0 := by
  rw [hi.count_eq B hB]
  have hnil : (depsOf d B).filter (fun a => a ∉ out) = [] := by
    rw [List.filter_eq_nil_iff]
    intro a ha
    simpa using h a ha
  rw [hnil]
  rfl

theorem edgesOf_sub {d : DAG} (he : EdgesOk d) {A B : String}
    (hB : B ∈ edgesOf d A) : B ∈ nodeKeys d := by
  rw [edgesOf] at hB
  cases halook : alookup d.edges A with
  | none => rw [halook] at hB; cases hB
  | some l =>
    rw [halook] at hB
    exact he.1 (A, l) (alookup_mem halook) B hB

/-- One iteration of the Kahn loop preserves the invariant. -/
theorem kahn_iter_preserve (d : DAG) (he : EdgesOk d)
    {deg : String → Int} {curr : String} {rest out : List String}
    (hi : KInv d deg (curr :: rest) out) :
    KInv d ((edgesOf d curr).foldl kahnDecStep (deg, rest)).1
      ((edgesOf d curr).foldl kahnDecStep (deg, rest)).2 (out ++ [curr]) := by
  have hcurr_key : curr ∈ nodeKeys d := hi.q_sub curr (List.mem_cons_self curr rest)
  have hcurr_nout : curr ∉ out := fun h => hi.disj curr h (List.mem_cons_self curr rest)
  have hcurr_nrest : curr ∉ rest := (List.nodup_cons.mp hi.q_nodup).1
  have hrest_nodup : rest.Nodup := (List.nodup_cons.mp hi.q_nodup).2
  have hdeg_curr : deg curr = 0 :=
    hi.deg_zero_of_deps_out hcurr_key (hi.q_deps curr (List.mem_cons_self curr rest))
  have hout_deg0 : ∀ x ∈ out, deg x = 0 := fun x hx =>
    hi.deg_zero_of_deps_out (hi.out_sub x hx) (fun a ha => (hi.out_order x hx a ha).1)
  have hrest_deg0 : ∀ m ∈ rest, deg m = 0 := fun m hm =>
    hi.deg_zero_of_deps_out (hi.q_sub m (List.mem_cons_of_mem curr hm))
      (hi.q_deps m (List.mem_cons_of_mem curr hm))
  have hcount_rel : ∀ B ∈ nodeKeys d,
      (edgesOf d curr).count B = (depsOf d B).count curr :=
    fun B hB => he.2 curr hcurr_key B hB
  have hge : ∀ B ∈ edgesOf d curr, ((edgesOf d curr).count B : Int) ≤ deg B := by
    intro B hB
    have hBkey : B ∈ nodeKeys d := edgesOf_sub he hB
    rw [hcount_rel B hBkey, hi.count_eq B hBkey]
    have hle : (depsOf d B).count curr
        ≤ ((depsOf d B).filter (fun a => a ∉ out)).length := by
      calc (depsOf d B).count curr
          = ((depsOf d B).filter (fun a => a ∉ out)).count curr := by
            rw [List.count_filter (by simpa using hcurr_nout)]
        _ ≤ _ := List.count_le_length _ _
    exact_mod_cast hle
  obtain ⟨c1, c2, c3, c4⟩ :=
    kahnFold_queue (edgesOf d curr) deg rest hge hrest_deg0 hrest_nodup
  have hqmono := kahnFold_queue_mono (edgesOf d curr) deg rest
  have hcnt := kahnFold_count (edgesOf d curr) deg rest
  have hcount_eq' : ∀ B ∈ nodeKeys d,
      ((edgesOf d curr).foldl kahnDecStep (deg, rest)).1 B =
        (((depsOf d B).filter (fun a => a ∉ out ++ [curr])).length : Int) := by
    intro B hB
    rw [hcnt B, hi.count_eq B hB, hcount_rel B hB]
    have hfl := filter_length_emit (depsOf d B) out curr hcurr_nout
    omega
  refine ⟨hcount_eq', ?_, c2, ?_, ?_, ?_, ?_, ?_, ?_⟩
  · rw [List.nodup_append]
    exact ⟨hi.out_nodup, List.nodup_singleton curr, by simpa using hcurr_nout⟩
  · -- emitted names are not in the new queue
    intro x hx hxq
    have hxdeg : deg x = 0 := by
      rcases List.mem_append.mp hx with h | h
      · exact hout_deg0 x h
      · have : x = curr := by simpa using h
        subst this
        exact hdeg_curr
    rcases c3 x hxq with hxr | hxe
    · rcases List.mem_append.mp hx with h | h
      · exact hi.disj x h (List.mem_cons_of_mem curr hxr)
      · have : x = curr := by simpa using h
        subst this
        exact hcurr_nrest hxr
    · have := hge x hxe
      have hpos : 0 < (edgesOf d curr).count x := List.count_pos_iff.mpr hxe
      omega
  · intro x hx
    rcases List.mem_append.mp hx with h | h
    · exact hi.out_sub x h
    · have : x = curr := by simpa using h
      subst this
      exact hcurr_key
  · intro x hx
    rcases c3 x hx with h | h
    · exact hi.q_sub x (List.mem_cons_of_mem curr h)
    · exact edgesOf_sub he h
  · -- queued names have all dependencies emitted
    intro B hB a ha
    have hBkey : B ∈ nodeKeys d := by
      rcases c3 B hB with h | h
      · exact hi.q_sub B (List.mem_cons_of_mem curr h)
      · exact edgesOf_sub he h
    have h0 := c1 B hB
    rw [hcount_eq' B hBkey] at h0
    have hnil : (depsOf d B).filter (fun a => a ∉ out ++ [curr]) = [] := by
      have : ((depsOf d B).filter (fun a => a ∉ out ++ [curr])).length = 0 := by
        exact_mod_cast h0
      exact List.length_eq_zero.mp this
    by_contra hcon
    have : a ∈ (depsOf d B).filter (fun a => a ∉ out ++ [curr]) :=
      List.mem_filter.mpr ⟨ha, by simpa using hcon⟩
    rw [hnil] at this
    cases this
  · -- order property on the extended output
    intro n hn a ha
    rcases List.mem_append.mp hn with h | h
    · obtain ⟨haout, hidx⟩ := hi.out_order n h a ha
      refine ⟨List.mem_append_left _ haout, ?_⟩
      rw [List.indexOf_append_of_mem haout, List.indexOf_append_of_mem h]
      exact hidx
    · have : n = curr := by simpa using h
      subst this
      have haout : a ∈ out := hi.q_deps n (List.mem_cons_self n rest) a ha
      refine ⟨List.mem_append_left _ haout, ?_⟩
      rw [List.indexOf_append_of_mem haout, List.indexOf_append_of_not_mem hcurr_nout]
      have : out.indexOf a < out.length := List.indexOf_lt_length.mpr haout
      simpa using this
  · -- zero-degree names are emitted or queued
    intro B hB h0
    by_cases hBe : B ∈ edgesOf d curr
    · exact Or.inr (c4 B hBe h0)
    · have hzero : (edgesOf d curr).count B = 0 := List.count_eq_zero.mpr hBe
      rw [hcnt B, hzero] at h0
      simp only [Nat.cast_zero, sub_zero] at h0
      rcases hi.zero_in B hB h0 with h | h
      · exact Or.inl (List.mem_append_left _ h)
      · rcases List.mem_cons.mp h with rfl | h'
        · exact Or.inl (List.mem_append_right _ (by simp))
        · exact Or.inr (hqmono B h')

/-- With fuel at least `|nodes| + 1 - |out|`, the Kahn loop runs to queue
exhaustion and its result satisfies the invariant with an empty queue; in
particular the fuel `|nodes| + 1` used by `getTopologicalOrder` is enough
(each iteration emits one fresh registered name, so there are at most
`|nodes|` iterations — this is also why the Go loop terminates). -/
theorem kahnLoop_terminal (d : DAG) (he : EdgesOk d) :
    ∀ (fuel : Nat) (q : List String) (deg : String → Int) (out : List String),
      KInv d deg q out → d.nodes.length + 1 ≤ fuel + out.length →
      ∃ deg', KInv d deg' [] (kahnLoop d fuel q deg out) := by
  intro fuel
  induction fuel with
  | zero =>
    intro q deg out hi hb
    exfalso
    have hlen : out.length ≤ (nodeKeys d).length :=
      nodup_subset_length_le hi.out_nodup hi.out_sub
    have : (nodeKeys d).length = d.nodes.length := List.length_map _ _
    omega
  | succ fuel ih =>
    intro q deg out hi hb
    cases q with
    | nil => exact ⟨deg, by rw [kahnLoop]; exact hi⟩
    | cons curr rest =>
      rw [kahnLoop]
      have hstep := kahn_iter_preserve d he hi
      exact ih _ _ _ hstep (by rw [List.length_append]; simp; omega)

/-- Acyclicity makes the terminal output cover every registered name. -/
theorem kahn_complete_of_acyclic (d : DAG)
    (hnm : ∀ B ∈ nodeKeys d, ∀ a ∈ depsOf d B, a ∈ nodeKeys d)
    (hacy : Acyclic d) {deg : String → Int} {res : List String}
    (hi : KInv d deg [] res) : ∀ B ∈ nodeKeys d, B ∈ res := by
  by_contra hcon
  push_neg at hcon
  obtain ⟨B₀, hB₀, hB₀r⟩ := hcon
  have hS : B₀ ∈ (nodeKeys d).filter (fun x => x ∉ res) :=
    List.mem_filter.mpr ⟨hB₀, by simpa using hB₀r⟩
  have hsucc : ∀ b ∈ (nodeKeys d).filter (fun x => x ∉ res),
      ∃ a ∈ (nodeKeys d).filter (fun x => x ∉ res), depStep d b a := by
    intro b hb
    obtain ⟨hbk, hbr⟩ := List.mem_filter.mp hb
    have hbr' : b ∉ res := by simpa using hbr
    have hdeg : deg b ≠ 0 := by
      intro h0
      rcases hi.zero_in b hbk h0 with h | h
      · exact hbr' h
      · cases h
    have hfil : (depsOf d b).filter (fun a => a ∉ res) ≠ [] := by
      intro hnil
      exact hdeg (by rw [hi.count_eq b hbk, hnil]; rfl)
    obtain ⟨a, ha⟩ := List.exists_mem_of_ne_nil _ hfil
    obtain ⟨hadep, har⟩ := List.mem_filter.mp ha
    exact ⟨a, List.mem_filter.mpr ⟨hnm b hbk a hadep, har⟩, hadep⟩
  obtain ⟨x, hx⟩ := exists_cycle_of_succ ((nodeKeys d).filter (fun x => x ∉ res))
    (depStep d) (List.ne_nil_of_mem hS) hsucc
  exact hacy x hx

theorem depStep_src_key {d : DAG} {a b : String} (h : depStep d a b) :
    a ∈ nodeKeys d := by
  rw [depStep, depsOf] at h
  cases halook : alookup d.nodes a with
  | none => rw [halook] at h; cases h
  | some t =>
    exact (alookup_isSome_iff d.nodes a).mp (by rw [halook]; rfl)

/-- A cycle forces the terminal output to miss some registered name: the
emitted prefix is topologically ordered, and no cycle embeds in a linear
order. -/
theorem kahn_incomplete_of_cycle (d : DAG) {deg : String → Int} {res : List String}
    (hi : KInv d deg [] res) {x : String}
    (hcyc : Relation.TransGen (depStep d) x x) : ∃ B ∈ nodeKeys d, B ∉ res := by
  by_contra hcon
  push_neg at hcon
  have hrank : ∀ a b, Relation.TransGen (depStep d) a b →
      a ∈ res → b ∈ res ∧ res.indexOf b < res.indexOf a := by
    intro a b hab ha
    induction hab with
    | single h => exact hi.out_order a ha _ h
    | tail _ hstep ihab =>
      obtain ⟨hb, hidx⟩ := ihab
      obtain ⟨hc, hidx'⟩ := hi.out_order _ hb _ hstep
      exact ⟨hc, lt_trans hidx' hidx⟩
  have hxk : x ∈ nodeKeys d := by
    obtain ⟨c, hxc, _⟩ := Relation.TransGen.head'_iff.mp hcyc
    exact depStep_src_key hxc
  obtain ⟨_, hidx⟩ := hrank x x hcyc (hcon x hxk)
  omega

theorem checkMissing_eq_none_iff (d : DAG) : checkMissing d = none ↔ NoMissing d := by
  rw [checkMissing, List.findSome?_eq_none_iff]
  constructor
  · intro h p hp a ha
    have h1 := h p hp
    rw [List.findSome?_eq_none_iff] at h1
    have h2 := h1 a ha
    cases hs : (alookup d.nodes a).isSome with
    | true => trivial
    | false => rw [if_neg (by simp [hs])] at h2; cases h2
  · intro h p hp
    rw [List.findSome?_eq_none_iff]
    intro a ha
    rw [if_pos (h p hp a ha)]

/-- The Kahn invariant at the seeded start state. -/
theorem kahnInit (d : DAG) (hkeys : (nodeKeys d).Nodup) :
    KInv d (initialInDegree d) (seedQueue d) [] := by
  refine ⟨?_, List.nodup_nil, ?_, ?_, ?_, ?_, ?_, ?_, ?_⟩
  · intro B _
    rw [initialInDegree]
    congr 1
    rw [List.filter_eq_self.mpr (fun a _ => by simp)]
  · have hsub : List.Sublist
        ((d.nodes.filter (fun p => p.2.deps.length = 0)).map (fun p => p.1))
        (d.nodes.map (fun p => p.1)) :=
      (List.filter_sublist d.nodes).map (fun p => p.1)
    exact hkeys.sublist hsub
  · intro x hx
    cases hx
  · intro x hx
    cases hx
  · intro x hx
    obtain ⟨p, hp, rfl⟩ := List.mem_map.mp hx
    exact List.mem_map_of_mem _ (List.mem_of_mem_filter hp)
  · intro B hB a ha
    obtain ⟨p, hp, rfl⟩ := List.mem_map.mp hB
    have hdeps : depsOf d p.1 = p.2.deps := by
      rw [depsOf, alookup_self_of_nodup hkeys (List.mem_of_mem_filter hp)]
    have hlen : p.2.deps.length = 0 := by
      have := (List.mem_filter.mp hp).2
      simpa using this
    rw [hdeps, List.length_eq_zero.mp hlen] at ha
    cases ha
  · intro n hn
    cases hn
  · intro B hB h0
    obtain ⟨p, hp, rfl⟩ := List.mem_map.mp hB
    have hdeps : depsOf d p.1 = p.2.deps := by
      rw [depsOf, alookup_self_of_nodup hkeys hp]
    refine Or.inr (List.mem_map_of_mem _ (List.mem_filter.mpr ⟨hp, ?_⟩))
    rw [initialInDegree, hdeps] at h0
    simpa using (show p.2.deps.length = 0 by exact_mod_cast h0)

theorem getTopologicalOrder_eq (d : DAG) (h : checkMissing d = none) :
    getTopologicalOrder d =
      (if (kahnLoop d (d.nodes.length + 1) (seedQueue d) (initialInDegree d) []).length
          = d.nodes.length
       then Except.ok (kahnLoop d (d.nodes.length + 1) (seedQueue d) (initialInDegree d) [])
       else Except.error "cycle detected in DAG") := by
  simp only [getTopologicalOrder, h]

/-- C2: for a DAG with distinct names, consistent edges, and no missing
dependencies, `GetTopologicalOrder` (a) on an acyclic graph returns an order
in which every registered name appears exactly once; (b) on a graph with a
cycle returns the `"cycle detected in DAG"` error, because Kahn's algorithm
emits strictly fewer names than were registered. -/
theorem getTopologicalOrder_spec (d : DAG)
    (hkeys : (nodeKeys d).Nodup) (he : EdgesOk d) (hnm : NoMissing d) :
    (Acyclic d → ∃ l, getTopologicalOrder d = Except.ok l ∧
      ∀ n ∈ nodeKeys d, l.count n = 1) ∧
    (¬ Acyclic d → getTopologicalOrder d = Except.error "cycle detected in DAG") := by
  have hmiss : checkMissing d = none := (checkMissing_eq_none_iff d).mpr hnm
  have hnm' : ∀ B ∈ nodeKeys d, ∀ a ∈ depsOf d B, a ∈ nodeKeys d := by
    intro B hB a ha
    rw [depsOf] at ha
    cases halook : alookup d.nodes B with
    | none => rw [halook] at ha; cases ha
    | some t =>
      rw [halook] at ha
      exact (alookup_isSome_iff d.nodes a).mp (hnm (B, t) (alookup_mem halook) a ha)
  obtain ⟨deg', hterm⟩ := kahnLoop_terminal d he (d.nodes.length + 1) (seedQueue d)
    (initialInDegree d) [] (kahnInit d hkeys) (by simp)
  constructor
  · intro hacy
    have hall := kahn_complete_of_acyclic d hnm' hacy hterm
    have hlen : (kahnLoop d (d.nodes.length + 1) (seedQueue d)
        (initialInDegree d) []).length = d.nodes.length := by
      have h1 := nodup_subset_length_le hterm.out_nodup hterm.out_sub
      have h2 := nodup_subset_length_le hkeys hall
      have h3 : (nodeKeys d).length = d.nodes.length := List.length_map _ _
      omega
    refine ⟨kahnLoop d (d.nodes.length + 1) (seedQueue d) (initialInDegree d) [],
      ?_, ?_⟩
    · rw [getTopologicalOrder_eq d hmiss, if_pos hlen]
    · intro n hn
      exact List.count_eq_one_of_mem hterm.out_nodup (hall n hn)
  · intro hnacy
    have hcyc : ∃ x, Relation.TransGen (depStep d) x x := by
      by_contra hc
      push_neg at hc
      exact hnacy hc
    obtain ⟨x, hx⟩ := hcyc
    obtain ⟨B, hBk, hBr⟩ := kahn_incomplete_of_cycle d hterm hx
    have hlen : ¬ ((kahnLoop d (d.nodes.length + 1) (seedQueue d)
        (initialInDegree d) []).length = d.nodes.length) := by
      intro heq
      have hsub : (kahnLoop d (d.nodes.length + 1) (seedQueue d)
          (initialInDegree d) []).toFinset ⊆ (nodeKeys d).toFinset := fun y hy =>
        List.mem_toFinset.mpr (hterm.out_sub y (List.mem_toFinset.mp hy))
      have hcards : (nodeKeys d).toFinset.card ≤ (kahnLoop d (d.nodes.length + 1)
          (seedQueue d) (initialInDegree d) []).toFinset.card := by
        rw [List.toFinset_card_of_nodup hterm.out_nodup,
          List.toFinset_card_of_nodup hkeys]
        have h3 : (nodeKeys d).length = d.nodes.length := List.length_map _ _
        omega
      have heqf := Finset.eq_of_subset_of_card_le hsub hcards
      exact hBr (List.mem_toFinset.mp (heqf ▸ List.mem_toFinset.mpr hBk))
    rw [getTopologicalOrder_eq d hmiss, if_neg hlen]

instance (d : DAG) (a b : String) : Decidable (depStep d a b) :=
  decidable_of_iff (b ∈ depsOf d a) Iff.rfl

instance (d : DAG) : Decidable (NoMissing d) :=
  decidable_of_iff (∀ p ∈ d.nodes, ∀ a ∈ p.2.deps, (alookup d.nodes a).isSome) Iff.rfl

/-- A concrete two-task dependency cycle built through `AddTask`. -/
def cycDag : DAG :=
  (addTask (addTask ⟨[], []⟩ (some ⟨"A", ["B"]⟩)).2 (some ⟨"B", ["A"]⟩)).2

/-- Witness for `getTopologicalOrder_spec`: on the concrete cyclic DAG the
method reports the cycle error. -/
theorem getTopologicalOrder_spec_witness :
    getTopologicalOrder cycDag = Except.error "cycle detected in DAG" := by
  have hnot : ¬ Acyclic cycDag := fun h =>
    h "A" (Relation.TransGen.head (show depStep cycDag "A" "B" by decide)
      (Relation.TransGen.single (show depStep cycDag "B" "A" by decide)))
  exact (getTopologicalOrder_spec cycDag (by decide) ⟨by decide, by decide⟩
    (by decide)).2 hnot

/-! ## Validation (`dag.go`, `Validate` / `detectCycle`, lines 66-110)

`Validate` first runs the missing-dependency scan, then a depth-first search
for cycles.  The Go `visited` map is persistent (threaded through and
returned here); the `recStack` map holds exactly the chain of in-progress
ancestors, because each frame clears its own entry before returning — the
embedding passes that chain down as a list.  Recursion depth is bounded by
the number of distinct nodes (each deepening pushes a fresh node onto the
stack), made explicit by a fuel of `|nodes| + 1`; the fuel-exhausted
sentinel is proved unreachable inside the soundness lemma. -/

/-- The error of `detectCycle` (`dag.go` line 96). -/
def cycleErrMsg (n : String) : String := "cycle detected involving task: " ++ n

mutual

/-- `DAG.detectCycle` (`dag.go` lines 91-110). -/
def detectCycle (d : DAG) : Nat → String → List String → List String →
    Option String × List String
  | 0, _, vis, _ => (some "fuel exhausted", vis)
  | fuel + 1, n, vis, stk =>
    if (alookup d.nodes n).isSome = false then (none, vis)
    else if n ∈ stk then (some (cycleErrMsg n), vis)
    else if n ∈ vis then (none, vis)
    else detectDeps d fuel (depsOf d n) (n :: vis) (n :: stk)
termination_by fuel _ _ _ => (fuel, 0)

/-- The `for _, neighbor := range d.nodes[node].Deps` loop of `detectCycle`
(`dag.go` lines 103-107), stopping at the first error. -/
def detectDeps (d : DAG) : Nat → List String → List String → List String →
    Option String × List String
  | _, [], vis, _ => (none, vis)
  | fuel, dep :: deps, vis, stk =>
    match detectCycle d fuel dep vis stk with
    | (some e, vis') => (some e, vis')
    | (none, vis') => detectDeps d fuel deps vis' stk
termination_by fuel deps _ _ => (fuel, deps.length + 1)

end

/-- The `for node := range d.nodes` loop of `Validate` (`dag.go` lines
80-86), iterating root names in insertion order and threading `visited`. -/
def validateGo (d : DAG) : List String → List String → Option String
  | [], _ => none
  | r :: rs, vis =>
    if r ∈ vis then validateGo d rs vis
    else
      match detectCycle d (d.nodes.length + 1) r vis [] with
      | (some e, _) => some e
      | (none, vis') => validateGo d rs vis'

/-- `DAG.Validate` (`dag.go` lines 66-88). -/
def validate (d : DAG) : Option String :=
  match checkMissing d with
  | some e => some e
  | none => validateGo d (nodeKeys d) []

/-- `n` reaches no cycle along dependency edges. -/
def Safe (d : DAG) (n : String) : Prop :=
  ∀ x, Relation.ReflTransGen (depStep d) n x → ¬ Relation.TransGen (depStep d) x x

/-- Fully-processed (visited, off-stack) nodes reach no cycle. -/
def GOOD (d : DAG) (vis stk : List String) : Prop :=
  ∀ m ∈ vis, m ∉ stk → Safe d m

/-- The recursion stack is a chain of dependency edges, deepest first. -/
def stackLinked (d : DAG) : List String → Prop
  | [] => True
  | [_] => True
  | a :: b :: t => depStep d b a ∧ stackLinked d (b :: t)

/-- The current node is a dependency of the top of the stack (or the stack is
empty, for the root call). -/
def headLink (d : DAG) (stk : List String) (n : String) : Prop :=
  match stk with
  | [] => True
  | p :: _ => depStep d p n

/-- Every stack member reaches the stack head along dependency edges. -/
theorem stack_reach_head (d : DAG) : ∀ (p : String) (t : List String),
    stackLinked d (p :: t) → ∀ n ∈ p :: t, Relation.ReflTransGen (depStep d) n p := by
  intro p t
  induction t generalizing p with
  | nil =>
    intro _ n hn
    have : n = p := by simpa using hn
    subst this
    exact Relation.ReflTransGen.refl
  | cons b t ihb =>
    intro hlink n hn
    have hlink' : depStep d b p ∧ stackLinked d (b :: t) := hlink
    rcases List.mem_cons.mp hn with rfl | hn'
    · exact Relation.ReflTransGen.refl
    · exact (ihb b hlink'.2 n hn').tail hlink'.1

/-- A node all of whose direct dependencies are safe is safe. -/
theorem safe_of_succ_safe {d : DAG} {n : String}
    (h : ∀ b, depStep d n b → Safe d b) : Safe d n := by
  intro x hx hcyc
  rcases Relation.ReflTransGen.cases_head hx with heq | ⟨c, hnc, hcx⟩
  · subst heq
    obtain ⟨c, hnc, hcn⟩ := Relation.TransGen.head'_iff.mp hcyc
    exact h c hnc _ hcn hcyc
  · exact h c hnc x hcx hcyc

/-- Soundness of the cycle search: an error implies a real dependency cycle
(and the fuel sentinel is unreachable: the stack is duplicate-free inside
the registered names, so the recursion depth never exceeds `|nodes|`). -/
theorem detect_sound (d : DAG) : ∀ fuel : Nat,
    (∀ n vis stk e vis', detectCycle d fuel n vis stk = (some e, vis') →
      stackLinked d stk → headLink d stk n →
      d.nodes.length + 1 ≤ fuel + stk.length → stk.Nodup →
      (∀ x ∈ stk, x ∈ nodeKeys d) →
      ∃ x, Relation.TransGen (depStep d) x x) ∧
    (∀ ds vis stk e vis', detectDeps d fuel ds vis stk = (some e, vis') →
      stackLinked d stk → (∀ dep ∈ ds, headLink d stk dep) →
      d.nodes.length + 1 ≤ fuel + stk.length → stk.Nodup →
      (∀ x ∈ stk, x ∈ nodeKeys d) →
      ∃ x, Relation.TransGen (depStep d) x x) := by
  intro fuel
  induction fuel with
  | zero =>
    have hlen : ∀ stk : List String, stk.Nodup → (∀ x ∈ stk, x ∈ nodeKeys d) →
        d.nodes.length + 1 ≤ 0 + stk.length → False := by
      intro stk hnd hsub hb
      have h1 := nodup_subset_length_le hnd hsub
      have h2 : (nodeKeys d).length = d.nodes.length := List.length_map _ _
      omega
    constructor
    · intro n vis stk e vis' _ _ _ hb hnd hsub
      exact absurd hb (fun h => hlen stk hnd hsub h)
    · intro ds vis stk e vis' _ _ _ hb hnd hsub
      exact absurd hb (fun h => hlen stk hnd hsub h)
  | succ fuel ih =>
    have hsc : ∀ n vis stk e vis', detectCycle d (fuel + 1) n vis stk = (some e, vis') →
        stackLinked d stk → headLink d stk n →
        d.nodes.length + 1 ≤ (fuel + 1) + stk.length → stk.Nodup →
        (∀ x ∈ stk, x ∈ nodeKeys d) →
        ∃ x, Relation.TransGen (depStep d) x x := by
      intro n vis stk e vis' hdet hlink hhead hb hnd hsub
      simp only [detectCycle] at hdet
      by_cases h1 : (alookup d.nodes n).isSome = false
      · rw [if_pos h1] at hdet
        simp at hdet
      · rw [if_neg h1] at hdet
        by_cases h2 : n ∈ stk
        · cases stk with
          | nil => cases h2
          | cons p t =>
            have hpath : Relation.ReflTransGen (depStep d) n p :=
              stack_reach_head d p t hlink n h2
            exact ⟨n, Relation.TransGen.tail' hpath hhead⟩
        · rw [if_neg h2] at hdet
          by_cases h3 : n ∈ vis
          · rw [if_pos h3] at hdet
            simp at hdet
          · rw [if_neg h3] at hdet
            have hsome : (alookup d.nodes n).isSome = true := by
              cases hcase : (alookup d.nodes n).isSome
              · exact absurd hcase h1
              · rfl
            have hnkey : n ∈ nodeKeys d := (alookup_isSome_iff d.nodes n).mp hsome
            refine ih.2 (depsOf d n) (n :: vis) (n :: stk) e vis' hdet ?_ ?_ ?_ ?_ ?_
            · cases stk with
              | nil => trivial
              | cons p t => exact ⟨hhead, hlink⟩
            · intro dep hdep
              exact hdep
            · rw [List.length_cons]
              omega
            · exact List.nodup_cons.mpr ⟨h2, hnd⟩
            · intro x hx
              rcases List.mem_cons.mp hx with rfl | hx'
              · exact hnkey
              · exact hsub x hx'
    refine ⟨hsc, ?_⟩
    intro ds
    induction ds with
    | nil =>
      intro vis stk e vis' hdet
      simp [detectDeps] at hdet
    | cons dep ds ihd =>
      intro vis stk e vis' hdet hlink hheads hb hnd hsub
      simp only [detectDeps] at hdet
      cases hmatch : detectCycle d (fuel + 1) dep vis stk with
      | mk o vis₁ =>
        rw [hmatch] at hdet
        cases o with
        | some e₁ =>
          exact hsc dep vis stk e₁ vis₁ hmatch hlink
            (hheads dep (List.mem_cons_self dep ds)) hb hnd hsub
        | none =>
          exact ihd vis₁ stk e vis' hdet hlink
            (fun dp hdp => hheads dp (List.mem_cons_of_mem dep hdp)) hb hnd hsub

/-- Completeness of the cycle search: a clean (error-free) traversal leaves
every processed node safe — it reaches no dependency cycle. -/
theorem detect_complete (d : DAG) : ∀ fuel : Nat,
    (∀ n vis stk vis', detectCycle d fuel n vis stk = (none, vis') →
      GOOD d vis stk →
      GOOD d vis' stk ∧ (∀ m ∈ vis, m ∈ vis') ∧ Safe d n ∧
        ((alookup d.nodes n).isSome → n ∈ vis')) ∧
    (∀ ds vis stk vis', detectDeps d fuel ds vis stk = (none, vis') →
      GOOD d vis stk →
      GOOD d vis' stk ∧ (∀ m ∈ vis, m ∈ vis') ∧ (∀ dep ∈ ds, Safe d dep)) := by
  intro fuel
  induction fuel with
  | zero =>
    constructor
    · intro n vis stk vis' hdet
      simp [detectCycle] at hdet
    · intro ds vis stk vis' hdet hg
      cases ds with
      | nil =>
        simp only [detectDeps] at hdet
        obtain ⟨-, rfl⟩ : none = (none : Option String) ∧ vis = vis' := by
          simpa using hdet
        exact ⟨hg, fun m hm => hm, by simp⟩
      | cons dep ds =>
        simp [detectDeps, detectCycle] at hdet
  | succ fuel ih =>
    have hcc : ∀ n vis stk vis', detectCycle d (fuel + 1) n vis stk = (none, vis') →
        GOOD d vis stk →
        GOOD d vis' stk ∧ (∀ m ∈ vis, m ∈ vis') ∧ Safe d n ∧
          ((alookup d.nodes n).isSome → n ∈ vis') := by
      intro n vis stk vis' hdet hg
      simp only [detectCycle] at hdet
      by_cases h1 : (alookup d.nodes n).isSome = false
      · rw [if_pos h1] at hdet
        obtain ⟨-, rfl⟩ : none = (none : Option String) ∧ vis = vis' := by
          simpa using hdet
        have hnone : alookup d.nodes n = none := by
          cases hcase : alookup d.nodes n
          · rfl
          · rw [hcase] at h1
            cases h1
        have hdeps : depsOf d n = [] := by
          rw [depsOf, hnone]
        refine ⟨hg, fun m hm => hm, ?_, ?_⟩
        · apply safe_of_succ_safe
          intro b hb
          rw [depStep, hdeps] at hb
          cases hb
        · intro hsome
          rw [h1] at hsome
          cases hsome
      · rw [if_neg h1] at hdet
        by_cases h2 : n ∈ stk
        · rw [if_pos h2] at hdet
          simp at hdet
        · rw [if_neg h2] at hdet
          by_cases h3 : n ∈ vis
          · rw [if_pos h3] at hdet
            obtain ⟨-, rfl⟩ : none = (none : Option String) ∧ vis = vis' := by
              simpa using hdet
            exact ⟨hg, fun m hm => hm, hg n h3 h2, fun _ => h3⟩
          · rw [if_neg h3] at hdet
            have hg' : GOOD d (n :: vis) (n :: stk) := by
              intro m hm hmstk
              rcases List.mem_cons.mp hm with rfl | hm'
              · exact absurd (List.mem_cons_self m stk) hmstk
              · exact hg m hm' (fun hms => hmstk (List.mem_cons_of_mem _ hms))
            obtain ⟨hgood', hmono', hsafe'⟩ := ih.2 (depsOf d n) (n :: vis) (n :: stk)
              vis' hdet hg'
            have hsafen : Safe d n := safe_of_succ_safe (fun b hb => hsafe' b hb)
            refine ⟨?_, ?_, hsafen, ?_⟩
            · intro m hm hmstk
              by_cases hmn : m = n
              · subst hmn
                exact hsafen
              · refine hgood' m hm (fun hms => ?_)
                rcases List.mem_cons.mp hms with h | h
                · exact hmn h
                · exact hmstk h
            · intro m hm
              exact hmono' m (List.mem_cons_of_mem n hm)
            · intro _
              exact hmono' n (List.mem_cons_self n vis)
    refine ⟨hcc, ?_⟩
    intro ds
    induction ds with
    | nil =>
      intro vis stk vis' hdet hg
      simp only [detectDeps] at hdet
      obtain ⟨-, rfl⟩ : none = (none : Option String) ∧ vis = vis' := by
        simpa using hdet
      exact ⟨hg, fun m hm => hm, by simp⟩
    | cons dep ds ihd =>
      intro vis stk vis' hdet hg
      simp only [detectDeps] at hdet
      cases hmatch : detectCycle d (fuel + 1) dep vis stk with
      | mk o vis₁ =>
        rw [hmatch] at hdet
        cases o with
        | some e₁ => simp at hdet
        | none =>
          obtain ⟨hg₁, hmono₁, hsafe₁, -⟩ := hcc dep vis stk vis₁ hmatch hg
          obtain ⟨hg', hmono', hsafes⟩ := ihd vis₁ stk vis' hdet hg₁
          refine ⟨hg', fun m hm => hmono' m (hmono₁ m hm), ?_⟩
          intro dp hdp
          rcases List.mem_cons.mp hdp with rfl | hdp'
          · exact hsafe₁
          · exact hsafes dp hdp'

/-- A clean validation loop leaves every listed root safe. -/
theorem validateGo_none_safe (d : DAG) : ∀ (roots vis : List String),
    validateGo d roots vis = none → (∀ m ∈ vis, Safe d m) →
    ∀ r ∈ roots, Safe d r := by
  intro roots
  induction roots with
  | nil =>
    intro vis _ _ r hr
    cases hr
  | cons r rs ih =>
    intro vis hval hvis r' hr'
    rw [validateGo] at hval
    by_cases hrv : r ∈ vis
    · rw [if_pos hrv] at hval
      rcases List.mem_cons.mp hr' with rfl | hr''
      · exact hvis r' hrv
      · exact ih vis hval hvis r' hr''
    · rw [if_neg hrv] at hval
      cases hmatch : detectCycle d (d.nodes.length + 1) r vis [] with
      | mk o vis₁ =>
        rw [hmatch] at hval
        cases o with
        | some e => cases hval
        | none =>
          have hgood : GOOD d vis [] := fun m hm _ => hvis m hm
          obtain ⟨hgood', -, hsafe, -⟩ :=
            (detect_complete d (d.nodes.length + 1)).1 r vis [] vis₁ hmatch hgood
          have hvis' : ∀ m ∈ vis₁, Safe d m := fun m hm =>
            hgood' m hm (List.not_mem_nil m)
          rcases List.mem_cons.mp hr' with rfl | hr''
          · exact hsafe
          · exact ih vis₁ hval hvis' r' hr''

/-- An error from the validation loop witnesses a real cycle. -/
theorem validateGo_some_cycle (d : DAG) : ∀ (roots vis : List String) (e : String),
    validateGo d roots vis = some e → ∃ x, Relation.TransGen (depStep d) x x := by
  intro roots
  induction roots with
  | nil =>
    intro vis e hval
    rw [validateGo] at hval
    cases hval
  | cons r rs ih =>
    intro vis e hval
    rw [validateGo] at hval
    by_cases hrv : r ∈ vis
    · rw [if_pos hrv] at hval
      exact ih vis e hval
    · rw [if_neg hrv] at hval
      cases hmatch : detectCycle d (d.nodes.length + 1) r vis [] with
      | mk o vis₁ =>
        rw [hmatch] at hval
        cases o with
        | some e₁ =>
          exact (detect_sound d (d.nodes.length + 1)).1 r vis [] e₁ vis₁ hmatch
            trivial trivial (by simp) List.nodup_nil (by simp)
        | none =>
          exact ih vis₁ e hval

/-- C7: `Validate` succeeds (returns `nil`) exactly when every referenced
dependency is registered and the dependency graph has no cycle; hence it
errors on a self-dependency (a cycle of length 1 — stated separately in the
second conjunct), on any longer cycle, and on a dependency naming an unknown
task, and returns `nil` on every acyclic, fully-referenced DAG. -/
theorem validate_spec (d : DAG) :
    (validate d = none ↔ NoMissing d ∧ Acyclic d) ∧
    (∀ n, depStep d n n → validate d ≠ none) := by
  have hmain : validate d = none ↔ NoMissing d ∧ Acyclic d := by
    constructor
    · intro hval
      rw [validate] at hval
      cases hmiss : checkMissing d with
      | some e => rw [hmiss] at hval; cases hval
      | none =>
        rw [hmiss] at hval
        refine ⟨(checkMissing_eq_none_iff d).mp hmiss, ?_⟩
        intro x hcyc
        have hsafe := validateGo_none_safe d (nodeKeys d) [] hval (by simp)
        have hxk : x ∈ nodeKeys d := by
          obtain ⟨c, hxc, -⟩ := Relation.TransGen.head'_iff.mp hcyc
          exact depStep_src_key hxc
        exact hsafe x hxk x Relation.ReflTransGen.refl hcyc
    · rintro ⟨hnm, hacy⟩
      rw [validate, (checkMissing_eq_none_iff d).mpr hnm]
      cases hval : validateGo d (nodeKeys d) [] with
      | none => rfl
      | some e =>
        obtain ⟨x, hx⟩ := validateGo_some_cycle d (nodeKeys d) [] e hval
        exact absurd hx (hacy x)
  refine ⟨hmain, ?_⟩
  intro n hself hval
  exact (hmain.mp hval).2 n (Relation.TransGen.single hself)

/-- A concrete self-dependency built through `AddTask`. -/
def selfDag : DAG := (addTask ⟨[], []⟩ (some ⟨"A", ["A"]⟩)).2

/-- Witness for `validate_spec`: the self-depending DAG is rejected. -/
theorem validate_spec_witness : validate selfDag ≠ none :=
  (validate_spec selfDag).2 "A" (by decide)

end Iapetus
